import Mathlib

/-!
Verification of the knowledge-graph post-processing pipeline:
shallow embedding of the filtering, export, batch-analysis and
structured-extraction-recovery code, with theorems checking the
specification's claims against it.

Python dictionaries with optional keys are modelled as structures with
`Option` fields (`.get(k, d)` becomes `Option.getD`); Python lists are
`List`; floats are `ℚ`; text is `List Char` in the extraction code.
-/

namespace KG

/-- Python's `str.lower()` (ASCII case mapping), written over the
character list so that it evaluates by kernel reduction. -/
def pyLower (s : String) : String :=
  String.mk (s.data.map Char.toLower)

/-- Python's `x in s` membership test, via decidable equality. -/
def memB {α : Type} [DecidableEq α] (xs : List α) (x : α) : Bool :=
  xs.any fun y => decide (y = x)

/-- A triple record, as the Python dict: a missing key is `none`;
the code reads fields with `.get(key, default)`. -/
structure Triple where
  subject    : Option String := none
  predicate  : Option String := none
  object     : Option String := none
  inferred   : Option Bool := none
  chunk      : Option Int := none
  confidence : Option ℚ := none
deriving DecidableEq, Repr

/-- `GraphFilter.filter_by_entities`: case-insensitive match of subject or
object against the entity list; `include_mode` keeps matches, otherwise
keeps non-matches. -/
def filter_by_entities (triples : List Triple) (entities : List String)
    (include_mode : Bool) : List Triple :=
  let entitiesSet := entities.map pyLower
  triples.filter fun t =>
    let subject := pyLower (t.subject.getD "")
    let obj := pyLower (t.object.getD "")
    let hasEntity := memB entitiesSet subject || memB entitiesSet obj
    (include_mode && hasEntity) || (!include_mode && !hasEntity)

/-- `GraphFilter.filter_by_relationships`: same, on the predicate only. -/
def filter_by_relationships (triples : List Triple) (relationships : List String)
    (include_mode : Bool) : List Triple :=
  let relationshipsSet := relationships.map pyLower
  triples.filter fun t =>
    let predicate := pyLower (t.predicate.getD "")
    let hasRelationship := memB relationshipsSet predicate
    (include_mode && hasRelationship) || (!include_mode && !hasRelationship)

/-- `GraphFilter.filter_by_inference_status`. -/
def filter_by_inference_status (triples : List Triple)
    (include_inferred include_original : Bool) : List Triple :=
  triples.filter fun t =>
    let isInferred := t.inferred.getD false
    (isInferred && include_inferred) || (!isInferred && include_original)

/-- `GraphFilter.filter_by_confidence`: inclusive range keep, confidence
defaulting to 1.0. -/
def filter_by_confidence (triples : List Triple) (min_confidence max_confidence : ℚ) :
    List Triple :=
  triples.filter fun t =>
    let confidence := t.confidence.getD 1
    decide (min_confidence ≤ confidence) && decide (confidence ≤ max_confidence)

/-- `GraphFilter.filter_by_chunk`: keep if the chunk id is listed. -/
def filter_by_chunk (triples : List Triple) (chunks : List Int) : List Triple :=
  triples.filter fun t => memB chunks (t.chunk.getD 0)

/-! `GraphFilter.get_subgraph_around_entity`: the Python builds an
insertion-ordered dict of neighbor sets over the original-case names,
runs a breadth-first search from the lower-cased center, and keeps the
triples whose lower-cased subject and object were both visited. -/

/-- Insertion-ordered dictionary of neighbor sets (the Python
`adjacency` dict of sets; only membership of the sets is observed). -/
abbrev Adj := List (String × List String)

def adjFind : Adj → String → Option (List String)
  | [], _ => none
  | (k0, v) :: r, k => if k0 = k then some v else adjFind r k

/-- `if k not in adjacency: adjacency[k] = set()`. -/
def adjAddKey (adj : Adj) (k : String) : Adj :=
  if (adjFind adj k).isSome then adj else adj ++ [(k, [])]

/-- `adjacency[k].add(v)` (the key is always present when called). -/
def adjAddEdge : Adj → String → String → Adj
  | [], k, v => [(k, [v])]
  | (k0, vs) :: r, k, v =>
    if k0 = k then (k0, if memB vs v then vs else vs ++ [v]) :: r
    else (k0, vs) :: adjAddEdge r k v

def buildAdjacency (triples : List Triple) : Adj :=
  triples.foldl (fun adj t =>
    let subject := t.subject.getD ""
    let obj := t.object.getD ""
    let adj1 := adjAddKey adj subject
    let adj2 := adjAddKey adj1 obj
    let adj3 := adjAddEdge adj2 subject obj
    adjAddEdge adj3 obj subject) []

/-- The BFS loop of `get_subgraph_around_entity`: pop the queue front,
skip entities already visited or beyond `max_hops`, otherwise record the
entity and enqueue its unvisited neighbors one hop further.  The fuel is
an upper bound on loop iterations supplied by the caller. -/
def bfsLoop : Nat → List (String × Nat) → List String → List String → Adj → Nat →
    List String
  | 0, _, _, ents, _, _ => ents
  | _ + 1, [], _, ents, _, _ => ents
  | fuel + 1, (cur, dist) :: queue, visited, ents, adj, maxHops =>
    if memB visited cur || decide (dist > maxHops) then
      bfsLoop fuel queue visited ents adj maxHops
    else
      let visited' := visited ++ [cur]
      let ents' := ents ++ [cur]
      let nbrs := (adjFind adj cur).getD []
      let queue' := queue ++ (nbrs.filter (fun n => !memB visited' n)).map
        (fun n => (n, dist + 1))
      bfsLoop fuel queue' visited' ents' adj maxHops

def get_subgraph_around_entity (triples : List Triple) (entity : String)
    (max_hops : Nat) : List Triple :=
  let adj := buildAdjacency triples
  let fuel := (adj.length + 2) * (2 + (adj.map (fun p => p.2.length)).sum) + 1
  let ents := bfsLoop fuel [(pyLower entity, 0)] [] [] adj max_hops
  triples.filter fun t =>
    memB ents (pyLower (t.subject.getD "")) &&
    memB ents (pyLower (t.object.getD ""))

/-- The spec's data-side entity predicate for C4, written from the spec's
words: the lower-cased subject or object equals the lower-casing of some
listed entity. -/
def specEntityMatch (entities : List String) (t : Triple) : Bool :=
  entities.any fun e =>
    decide (pyLower (t.subject.getD "") = pyLower e) ||
    decide (pyLower (t.object.getD "") = pyLower e)

/-- The two triples of the spec's concrete neighborhood scenario. -/
def demoTriple1 : Triple :=
  { subject := some "A", predicate := some "p", object := some "B",
    inferred := some false, chunk := some 0, confidence := some 1 }

def demoTriple2 : Triple :=
  { subject := some "B", predicate := some "q", object := some "C",
    inferred := some true, chunk := some 0, confidence := some (3 / 5) }

def demoTriples : List Triple := [demoTriple1, demoTriple2]

/-! The multi-format exporter (`export_utils.export_multiple_formats`).
Each `export_to_*` computes its statistics from the triples and performs
one file write; the file system is abstracted as an oracle from the
output path to success or an error message (the invalid-path `OSError`
of the Python). -/

/-- File-system oracle: what opening/writing a given path does. -/
abbrev WriteFS := String → Except String Unit

inductive ExportStats where
  | jsonStats (total uniqueEntities uniqueRelationships inferredCount : Nat)
  | csvStats (total : Nat)
  | graphStats (nodes edges : Nat) (fmt : String)
  | turtleStats (total : Nat)
deriving DecidableEq, Repr

/-- Insert into an order-preserving list `acc`, skipping duplicates
(a Python `set` observed through its size). -/
def insertNew (acc : List String) (x : String) : List String :=
  if memB acc x then acc else acc ++ [x]

/-- `ExportManager._get_unique_entities`: all subjects and objects with
the empty string discarded. -/
def uniqueEntities (triples : List Triple) : List String :=
  (triples.foldl (fun acc t =>
    insertNew (insertNew acc (t.subject.getD "")) (t.object.getD "")) []).filter
    (fun s => decide (s ≠ ""))

/-- `ExportManager._get_unique_relationships`: nonempty predicates. -/
def uniqueRelationships (triples : List Triple) : List String :=
  triples.foldl (fun acc t =>
    let rel := t.predicate.getD ""
    if rel ≠ "" then insertNew acc rel else acc) []

def inferredCount (triples : List Triple) : Nat :=
  (triples.filter fun t => t.inferred.getD false).length

/-- Triples whose subject, object and predicate are all truthy
(nonempty), the ones the graph exporters keep. -/
def validTriples (triples : List Triple) : List Triple :=
  triples.filter fun t =>
    decide (t.subject.getD "" ≠ "") && decide (t.object.getD "" ≠ "") &&
    decide (t.predicate.getD "" ≠ "")

/-- Nodes of the NetworkX `DiGraph` built by the graph exporters. -/
def graphNodes (triples : List Triple) : List String :=
  (validTriples triples).foldl (fun acc t =>
    insertNew (insertNew acc (t.subject.getD "")) (t.object.getD "")) []

/-- Edges of the `DiGraph`: parallel edges between the same ordered pair
collapse. -/
def graphEdges (triples : List Triple) : List (String × String) :=
  (validTriples triples).foldl (fun acc t =>
    let e := (t.subject.getD "", t.object.getD "")
    if acc.any (fun e0 => decide (e0 = e)) then acc else acc ++ [e]) []

def export_to_json (w : WriteFS) (triples : List Triple) (output_path : String) :
    Except String ExportStats := do
  let _ ← w output_path
  pure (.jsonStats triples.length (uniqueEntities triples).length
    (uniqueRelationships triples).length (inferredCount triples))

def export_to_csv (w : WriteFS) (triples : List Triple) (output_path : String) :
    Except String ExportStats := do
  let _ ← w output_path
  pure (.csvStats triples.length)

def export_to_graphml (w : WriteFS) (triples : List Triple) (output_path : String) :
    Except String ExportStats := do
  let _ ← w output_path
  pure (.graphStats (graphNodes triples).length (graphEdges triples).length "GraphML")

def export_to_gexf (w : WriteFS) (triples : List Triple) (output_path : String) :
    Except String ExportStats := do
  let _ ← w output_path
  pure (.graphStats (graphNodes triples).length (graphEdges triples).length "GEXF")

def export_to_rdf_turtle (w : WriteFS) (triples : List Triple) (output_path : String) :
    Except String ExportStats := do
  let _ ← w output_path
  pure (.turtleStats triples.length)

/-- One entry of the `results` dict of `export_multiple_formats`. -/
inductive FormatResult where
  | succeeded (file_path : String) (statistics : ExportStats)
  | failed (error : String)
deriving DecidableEq, Repr

/-- Python-dict insert: update the first matching key in place, else
append. -/
def resInsert : List (String × FormatResult) → String → FormatResult →
    List (String × FormatResult)
  | [], k, v => [(k, v)]
  | (k0, v0) :: r, k, v =>
    if k0 = k then (k0, v) :: r else (k0, v0) :: resInsert r k v

def resLookup : List (String × FormatResult) → String → Option FormatResult
  | [], _ => none
  | (k0, v) :: r, k => if k0 = k then some v else resLookup r k

def resKeys (m : List (String × FormatResult)) : List String := m.map Prod.fst

def knownFormat (f : String) : Bool :=
  decide (f = "json") || decide (f = "csv") || decide (f = "graphml") ||
  decide (f = "gexf") || decide (f = "turtle")

/-- The dispatch of `export_multiple_formats` on one format name (only
consulted for known formats). -/
def runExport (w : WriteFS) (triples : List Triple) (output_path format_name : String) :
    Except String ExportStats :=
  if format_name = "json" then export_to_json w triples output_path
  else if format_name = "csv" then export_to_csv w triples output_path
  else if format_name = "graphml" then export_to_graphml w triples output_path
  else if format_name = "gexf" then export_to_gexf w triples output_path
  else if format_name = "turtle" then export_to_rdf_turtle w triples output_path
  else .error "unknown format"

/-- The per-format loop body: unknown formats log a warning and
`continue`; inside the `try`, a raised export error becomes an error
entry, a normal return a success entry. -/
def emfStep (w : WriteFS) (triples : List Triple) (base_filename : String)
    (results : List (String × FormatResult)) (format_name : String) :
    List (String × FormatResult) :=
  let output_path := base_filename ++ "." ++ format_name
  if knownFormat format_name then
    match runExport w triples output_path format_name with
    | .ok stats => resInsert results format_name (.succeeded output_path stats)
    | .error e => resInsert results format_name (.failed e)
  else results

def export_multiple_formats (w : WriteFS) (triples : List Triple)
    (base_filename : String) (formats : Option (List String)) :
    List (String × FormatResult) :=
  (formats.getD ["json", "csv", "graphml"]).foldl (emfStep w triples base_filename) []

/-! The batch performance analyzer
(`batch_processing.PerformanceAnalyzer.analyze_batch_results`), applied
to the `results` mapping (file → record) of a batch run. -/

/-- The per-file record fields that `analyze_batch_results` reads
(`statistics` is flattened to its two consulted entries). -/
structure FileResult where
  status : String
  processing_time : ℚ
  triples_extracted : ℚ
  unique_entities : ℚ
  unique_relationships : ℚ
deriving DecidableEq, Repr

def listMin : List ℚ → ℚ
  | [] => 0
  | x :: r => r.foldl min x

def listMax : List ℚ → ℚ
  | [] => 0
  | x :: r => r.foldl max x

def qsum (l : List ℚ) : ℚ := l.foldl (· + ·) 0

inductive BatchAnalysis where
  | noSuccessfulResults
  | analysis (avg_processing_time min_processing_time max_processing_time
      total_processing_time avg_triples_per_file min_triples_per_file
      max_triples_per_file total_triples avg_entities_per_file
      avg_relationships_per_file files_per_hour triples_per_minute : ℚ)
deriving DecidableEq, Repr

/-- The body of `analyze_batch_results` applied to the already-selected
successful records. -/
def analyzeOf (successful : List FileResult) : BatchAnalysis :=
  if successful.isEmpty then .noSuccessfulResults
  else
    let processing_times := successful.map FileResult.processing_time
    let triples_counts := successful.map FileResult.triples_extracted
    let entity_counts := successful.map FileResult.unique_entities
    let relationship_counts := successful.map FileResult.unique_relationships
    .analysis
      (qsum processing_times / processing_times.length)
      (listMin processing_times) (listMax processing_times)
      (qsum processing_times)
      (qsum triples_counts / triples_counts.length)
      (listMin triples_counts) (listMax triples_counts)
      (qsum triples_counts)
      (qsum entity_counts / entity_counts.length)
      (qsum relationship_counts / relationship_counts.length)
      (successful.length / (qsum processing_times / 3600))
      (qsum triples_counts / (qsum processing_times / 60))

def analyze_batch_results (results : List (String × FileResult)) : BatchAnalysis :=
  analyzeOf ((results.map Prod.snd).filter fun r => decide (r.status = "success"))

/-- A concrete all-failed batch for the C8 witness. -/
def failedBatch : List (String × FileResult) :=
  [("a.txt", { status := "error", processing_time := 1, triples_extracted := 0,
               unique_entities := 0, unique_relationships := 0 }),
   ("b.txt", { status := "error", processing_time := 2, triples_extracted := 0,
               unique_entities := 0, unique_relationships := 0 })]

/-- The all-defaults triple (a Python dict with no keys). -/
def blankTriple : Triple := {}

/-- The result entry that `export_multiple_formats` records for one
known format: a success entry with the output path and statistics when
the export returns, an error entry with the message when it raises. -/
def formatOutcome (w : WriteFS) (triples : List Triple) (base_filename format_name : String) :
    FormatResult :=
  match runExport w triples (base_filename ++ "." ++ format_name) format_name with
  | .ok stats => .succeeded (base_filename ++ "." ++ format_name) stats
  | .error e => .failed e

/-- The keys a run of the export loop appends to a result map whose keys
are `seen`: first occurrences of not-yet-present format names. -/
def freshKeys (seen : List String) : List String → List String
  | [] => []
  | x :: r => if memB seen x then freshKeys seen r else x :: freshKeys (seen ++ [x]) r

/-- A file system where every write succeeds. -/
def okFS : WriteFS := fun _ => .ok ()

/-- A file system where exactly the path `"bad.json"` fails. -/
def demoFS : WriteFS := fun p => if p = "bad.json" then .error "boom" else .ok ()

/-! Structured extraction recovery (`llm_old.extract_json_from_text`).
Text is a list of characters.  `json.loads` is modelled by the
recursive-descent parser `loadsL` following the Python `json` module's
grammar (strict mode); a parse failure is the `JSONDecodeError`
exception.  The regular expressions of the code (the code-block fence
search and the two repair substitutions) are modelled by equivalent
scanning functions. -/

/-- Parsed JSON values.  Numbers keep their source lexeme (their float
value is not consulted anywhere in the claims); duplicate object keys
follow the Python dict: last value wins at the first key's position.
`\uXXXX` escapes are decoded as single code units without surrogate-pair
combination (an approximation of CPython outside every claim). -/
inductive Json where
  | null
  | bool (b : Bool)
  | num (lexeme : String)
  | str (s : String)
  | arr (elems : List Json)
  | obj (members : List (String × Json))

def isJsonWs (c : Char) : Bool :=
  c = ' ' || c = '\t' || c = '\n' || c = '\r'

def skipWs (cs : List Char) : List Char := cs.dropWhile isJsonWs

def isDigitC (c : Char) : Bool := '0' ≤ c && c ≤ '9'

/-- Integer part of the json `NUMBER_RE`: `0` or a nonzero digit
followed by a maximal digit run. -/
def pIntPart : List Char → Except Unit (List Char × List Char)
  | [] => .error ()
  | c :: r =>
    if c = '0' then .ok (['0'], r)
    else if isDigitC c then .ok (c :: r.takeWhile isDigitC, r.dropWhile isDigitC)
    else .error ()

/-- Optional fraction `\.\d+`; consumed only when complete. -/
def pFrac : List Char → List Char × List Char
  | [] => ([], [])
  | c :: r =>
    if c = '.' then
      if r.takeWhile isDigitC = [] then ([], c :: r)
      else ('.' :: r.takeWhile isDigitC, r.dropWhile isDigitC)
    else ([], c :: r)

/-- Optional exponent `[eE][-+]?\d+`; consumed only when complete. -/
def pExp (cs : List Char) : List Char × List Char :=
  match cs with
  | c :: s :: r2 =>
    if c = 'e' || c = 'E' then
      if s = '+' || s = '-' then
        let ds := r2.takeWhile isDigitC
        if ds = [] then ([], cs) else (c :: s :: ds, r2.dropWhile isDigitC)
      else
        let ds := (s :: r2).takeWhile isDigitC
        if ds = [] then ([], cs) else (c :: ds, (s :: r2).dropWhile isDigitC)
    else ([], cs)
  | _ => ([], cs)

/-- Integer, fraction and exponent parts in sequence. -/
def pNumCore (cs : List Char) : Except Unit (List Char × List Char) :=
  match pIntPart cs with
  | .error e => .error e
  | .ok (ip, r1) =>
    match pFrac r1 with
    | (fp, r2) =>
      match pExp r2 with
      | (ep, r3) => .ok (ip ++ fp ++ ep, r3)

def pNumber : List Char → Except Unit (List Char × List Char)
  | [] => pNumCore []
  | c :: r =>
    if c = '-' then
      match pNumCore r with
      | .ok (lex, r3) => .ok ('-' :: lex, r3)
      | .error e => .error e
    else pNumCore (c :: r)

def hexVal (c : Char) : Option Nat :=
  if isDigitC c then some (c.toNat - '0'.toNat)
  else if 'a' ≤ c && c ≤ 'f' then some (10 + (c.toNat - 'a'.toNat))
  else if 'A' ≤ c && c ≤ 'F' then some (10 + (c.toNat - 'A'.toNat))
  else none

def escChar (c : Char) : Option Char :=
  if c = '"' then some '"'
  else if c = '\\' then some '\\'
  else if c = '/' then some '/'
  else if c = 'b' then some (Char.ofNat 8)
  else if c = 'f' then some (Char.ofNat 12)
  else if c = 'n' then some '\n'
  else if c = 'r' then some '\r'
  else if c = 't' then some '\t'
  else none

/-- One backslash escape after the backslash: a single-character escape
or `\uXXXX`. -/
def pEsc : List Char → Except Unit (Char × List Char)
  | [] => .error ()
  | e :: r2 =>
    if e = 'u' then
      match r2 with
      | h1 :: h2 :: h3 :: h4 :: r3 =>
        (match hexVal h1, hexVal h2, hexVal h3, hexVal h4 with
         | some a, some b, some c, some d =>
           .ok (Char.ofNat (((a * 16 + b) * 16 + c) * 16 + d), r3)
         | _, _, _, _ => .error ())
      | _ => .error ()
    else
      match escChar e with
      | some c => .ok (c, r2)
      | none => .error ()

def startsWithL : List Char → List Char → Bool
  | [], _ => true
  | _ :: _, [] => false
  | p :: ps, c :: cs => decide (p = c) && startsWithL ps cs

/-- String body after the opening quote: ordinary characters (raw
control characters rejected, strict mode), backslash escapes. -/
def pStr : Nat → List Char → Except Unit (List Char × List Char)
  | 0, _ => .error ()
  | n + 1, cs =>
    match cs with
    | [] => .error ()
    | c :: r =>
      if c = '"' then .ok ([], r)
      else if c = '\\' then
        match pEsc r with
        | .error e => .error e
        | .ok (e, r2) =>
          match pStr n r2 with
          | .error e => .error e
          | .ok (s, r3) => .ok (e :: s, r3)
      else if c.toNat < 32 then .error ()
      else
        match pStr n r with
        | .error e => .error e
        | .ok (s, r2) => .ok (c :: s, r2)

/-- Python-dict update: replace the value at the first matching key,
else append. -/
def objUpd : List (String × Json) → String → Json → List (String × Json)
  | [], k, v => [(k, v)]
  | (k0, v0) :: r, k, v =>
    if k0 = k then (k0, v) :: r else (k0, v0) :: objUpd r k v

def dedupPairs (ms : List (String × Json)) : List (String × Json) :=
  ms.foldl (fun acc p => objUpd acc p.1 p.2) []

mutual

def pValue : Nat → List Char → Except Unit (Json × List Char)
  | 0, _ => .error ()
  | n + 1, cs =>
    match cs with
    | [] => .error ()
    | c :: r =>
      if c = '"' then
        match pStr n r with
        | .error e => .error e
        | .ok (s, r2) => .ok (.str (String.mk s), r2)
      else if c = '{' then
        match pMembs n r with
        | .error e => .error e
        | .ok (ms, r2) => .ok (.obj (dedupPairs ms), r2)
      else if c = '[' then
        match pElems n r with
        | .error e => .error e
        | .ok (es, r2) => .ok (.arr es, r2)
      else if startsWithL ['n', 'u', 'l', 'l'] (c :: r) then
        .ok (.null, (c :: r).drop 4)
      else if startsWithL ['t', 'r', 'u', 'e'] (c :: r) then
        .ok (.bool true, (c :: r).drop 4)
      else if startsWithL ['f', 'a', 'l', 's', 'e'] (c :: r) then
        .ok (.bool false, (c :: r).drop 5)
      else if startsWithL ['N', 'a', 'N'] (c :: r) then
        .ok (.num "NaN", (c :: r).drop 3)
      else if startsWithL ['I', 'n', 'f', 'i', 'n', 'i', 't', 'y'] (c :: r) then
        .ok (.num "Infinity", (c :: r).drop 8)
      else
        match pNumber (c :: r) with
        | .ok (lex, r2) => .ok (.num (String.mk lex), r2)
        | .error _ =>
          if startsWithL ['-', 'I', 'n', 'f', 'i', 'n', 'i', 't', 'y'] (c :: r) then
            .ok (.num "-Infinity", (c :: r).drop 9)
          else .error ()

def pElems : Nat → List Char → Except Unit (List Json × List Char)
  | 0, _ => .error ()
  | n + 1, cs =>
    match skipWs cs with
    | [] => .error ()
    | c :: r =>
      if c = ']' then .ok ([], r)
      else
        match pValue n (c :: r) with
        | .error e => .error e
        | .ok (v, r1) =>
          match pElemsTail n r1 with
          | .error e => .error e
          | .ok (vs, r2) => .ok (v :: vs, r2)

def pElemsTail : Nat → List Char → Except Unit (List Json × List Char)
  | 0, _ => .error ()
  | n + 1, cs =>
    match skipWs cs with
    | [] => .error ()
    | c :: r =>
      if c = ']' then .ok ([], r)
      else if c = ',' then
        match pValue n (skipWs r) with
        | .error e => .error e
        | .ok (v, r1) =>
          match pElemsTail n r1 with
          | .error e => .error e
          | .ok (vs, r2) => .ok (v :: vs, r2)
      else .error ()

def pMembs : Nat → List Char → Except Unit (List (String × Json) × List Char)
  | 0, _ => .error ()
  | n + 1, cs =>
    match skipWs cs with
    | [] => .error ()
    | c :: r =>
      if c = '}' then .ok ([], r)
      else if c = '"' then
        match pStr n r with
        | .error e => .error e
        | .ok (k, r1) =>
          match skipWs r1 with
          | [] => .error ()
          | d :: r2 =>
            if d = ':' then
              match pValue n (skipWs r2) with
              | .error e => .error e
              | .ok (v, r3) =>
                match pMembsTail n r3 with
                | .error e => .error e
                | .ok (ms, r4) => .ok ((String.mk k, v) :: ms, r4)
            else .error ()
      else .error ()

def pMembsTail : Nat → List Char → Except Unit (List (String × Json) × List Char)
  | 0, _ => .error ()
  | n + 1, cs =>
    match skipWs cs with
    | [] => .error ()
    | c :: r =>
      if c = '}' then .ok ([], r)
      else if c = ',' then
        match skipWs r with
        | [] => .error ()
        | d :: r1 =>
          if d = '"' then
            match pStr n r1 with
            | .error e => .error e
            | .ok (k, r2) =>
              match skipWs r2 with
              | [] => .error ()
              | e0 :: r3 =>
                if e0 = ':' then
                  match pValue n (skipWs r3) with
                  | .error e => .error e
                  | .ok (v, r4) =>
                    match pMembsTail n r4 with
                    | .error e => .error e
                    | .ok (ms, r5) => .ok ((String.mk k, v) :: ms, r5)
                else .error ()
          else .error ()
      else .error ()

end

/-- Fuel amply covering `json.loads` on an input of this length. -/
def loadsFuel (cs : List Char) : Nat := 2 * cs.length + 8

/-- `json.loads`: optional whitespace, one value, optional whitespace,
end of input. -/
def loadsL (cs : List Char) : Except Unit Json :=
  match pValue (loadsFuel cs) (skipWs cs) with
  | .error _ => .error ()
  | .ok (v, r) => if (skipWs r).isEmpty then .ok v else .error ()

/-- The Python exceptions distinguished by the `except` clauses of
`extract_json_from_text`. -/
inductive PErr where
  | jsonDecodeError
  | otherExc
deriving DecidableEq, Repr

/-- `json.loads` raises `JSONDecodeError` on any parse failure of a
string argument. -/
def loadsE (cs : List Char) : Except PErr Json :=
  match loadsL cs with
  | .ok v => .ok v
  | .error _ => .error .jsonDecodeError

/-- Python whitespace for `str.strip()` and the regex `\s` (ASCII). -/
def isPyWs (c : Char) : Bool :=
  c = ' ' || c = '\t' || c = '\n' || c = '\r' || c = Char.ofNat 11 || c = Char.ofNat 12

def pyStrip (cs : List Char) : List Char :=
  ((cs.dropWhile isPyWs).reverse.dropWhile isPyWs).reverse

def tripleTick : List Char := ['`', '`', '`']

def containsTriple : List Char → Bool
  | [] => false
  | c :: cs => startsWithL tripleTick (c :: cs) || containsTriple cs

/-- Characters before the first backtick fence, `none` when there is no
fence. -/
def takeUntilTriple : List Char → Option (List Char)
  | [] => none
  | c :: cs =>
    if startsWithL tripleTick (c :: cs) then some []
    else
      match takeUntilTriple cs with
      | some g => some (c :: g)
      | none => none

/-- The code-block regex search of the code, returning the stripped
first capture group.  The leftmost match starts at the first fence; the
optional `json` tag and the greedy whitespace run contain no backtick,
so the lazy capture ends at the next fence, and if the first fence has
no companion no later start position can match either. -/
def fenceSearch : List Char → Option (List Char)
  | [] => none
  | c :: cs =>
    if startsWithL tripleTick (c :: cs) then
      (takeUntilTriple
        ((if startsWithL ['j', 's', 'o', 'n'] ((c :: cs).drop 3)
            then (c :: cs).drop 7
            else (c :: cs).drop 3).dropWhile isPyWs)).map pyStrip
    else fenceSearch cs

/-- `text.find('[')`. -/
def findOpenBracket : List Char → Option Nat
  | [] => none
  | c :: cs => if c = '[' then some 0 else (findOpenBracket cs).map (· + 1)

/-- The balanced-bracket counting loop (lines 118-129): scan from the
array start, return the slice up to the `]` where the count returns to
zero, `none` when the input ends first. -/
def matchClose : List Char → Int → List Char → Option (List Char)
  | [], _, _ => none
  | c :: rest, cnt, tak =>
    if c = ']' then
      (if cnt - 1 = 0 then some ((c :: tak).reverse)
       else matchClose rest (cnt - 1) (c :: tak))
    else if c = '[' then matchClose rest (cnt + 1) (c :: tak)
    else matchClose rest cnt (c :: tak)

/-- Python slice `t[a:b]` with a possibly negative start. -/
def pySliceI (t : List Char) (a : Int) (b : Nat) : List Char :=
  let aN : Nat := if a < 0 then (t.length + a).toNat else a.toNat
  (t.take b).drop aN

/-- The complete-object scanner of the truncated branch (lines 158-168):
`objStart` is set by a `{` seen at brace depth 0, and each `}` that
returns the depth to 0 appends the slice `text[objStart : i+1]`. -/
def objGo (text : List Char) : List Char → Nat → Int → Int → List (List Char) →
    List (List Char)
  | [], _, _, _, acc => acc
  | c :: rest, i, objStart, cnt, acc =>
    if c = '{' then
      objGo text rest (i + 1) (if cnt = 0 then (i : Int) else objStart) (cnt + 1) acc
    else if c = '}' then
      if cnt - 1 = 0 then
        objGo text rest (i + 1) objStart (cnt - 1) (acc ++ [pySliceI text objStart (i + 1)])
      else objGo text rest (i + 1) objStart (cnt - 1) acc
    else objGo text rest (i + 1) objStart cnt acc

def objScan (text : List Char) (startIdx : Nat) : List (List Char) :=
  objGo text (text.drop (startIdx + 1)) (startIdx + 1) (-1) 0 []

def isWordC (c : Char) : Bool :=
  isDigitC c || ('a' ≤ c && c ≤ 'z') || ('A' ≤ c && c ≤ 'Z') || c = '_'

/-- `re.sub` with pattern `(\s*)(\w+)(\s*):(\s*)` and replacement
quoting the word: scan left to right, on a match emit the rewritten
groups and continue after the match, else advance one character.  The
word and whitespace classes are disjoint, so the greedy runs are the
maximal ones with no backtracking. -/
def fixKeysGo : Nat → List Char → List Char
  | 0, cs => cs
  | _ + 1, [] => []
  | fuel + 1, c :: cs =>
    let a := (c :: cs).takeWhile isPyWs
    let r1 := (c :: cs).dropWhile isPyWs
    let b := r1.takeWhile isWordC
    if b.isEmpty then c :: fixKeysGo fuel cs
    else
      let r2 := r1.dropWhile isWordC
      let c2 := r2.takeWhile isPyWs
      match r2.dropWhile isPyWs with
      | ':' :: r4 =>
        let d := r4.takeWhile isPyWs
        a ++ '"' :: (b ++ '"' :: (c2 ++ ':' :: (d ++ fixKeysGo fuel (r4.dropWhile isPyWs))))
      | _ => c :: fixKeysGo fuel cs

def fixKeys (cs : List Char) : List Char := fixKeysGo (cs.length + 1) cs

def isCloserC (c : Char) : Bool := c = ']' || c = '}'

/-- `re.sub` with pattern `,(\s*[\]\x7d])` and replacement `\1`:
drop a comma standing (up to whitespace) before a closing bracket or
brace. -/
def fixCommasGo : Nat → List Char → List Char
  | 0, cs => cs
  | _ + 1, [] => []
  | fuel + 1, c :: cs =>
    if c = ',' then
      let w := cs.takeWhile isPyWs
      match cs.dropWhile isPyWs with
      | d :: r2 =>
        if isCloserC d then w ++ d :: fixCommasGo fuel r2
        else c :: fixCommasGo fuel cs
      | [] => c :: fixCommasGo fuel cs
    else c :: fixCommasGo fuel cs

def fixCommas (cs : List Char) : List Char := fixCommasGo (cs.length + 1) cs

/-- The two repairs applied in order (lines 139-142 and 179-182). -/
def applyFixes (cs : List Char) : List Char := fixCommas (fixKeys cs)

/-- Python's `",\n".join`. -/
def joinComma : List (List Char) → List Char
  | [] => []
  | [o] => o
  | o :: os => o ++ ',' :: '\n' :: joinComma os

/-- `"[\n" + ",\n".join(objects) + "\n]"`. -/
def reconstruct (objs : List (List Char)) : List Char :=
  '[' :: '\n' :: (joinComma objs ++ '\n' :: [']'])

/-- The input seen by the element-tail loop after one object: the
remaining objects with their separators and the closing bracket. -/
def tailOf (os : List (List Char)) : List Char :=
  (os.map fun o => ',' :: '\n' :: o).flatten ++ '\n' :: [']']

/-- Fuel sufficient for the element-tail loop over these objects. -/
def fuelNeed : List (List Char) → Nat
  | [] => 1
  | o :: os => max (loadsFuel o) (fuelNeed os) + 1

/-- `extract_json_from_text` with the exception channel explicit: each
`try/except` catches `JSONDecodeError` or, for the repair retries, any
exception; every fall-through ends at the final `return None`. -/
def extractE (text0 : List Char) : Except PErr (Option Json) :=
  let text := match fenceSearch text0 with
    | some g => g
    | none => text0
  match loadsE text with
  | .ok v => .ok (some v)
  | .error .otherExc => .error .otherExc
  | .error .jsonDecodeError =>
    match findOpenBracket text with
    | none => .ok none
    | some startIdx =>
      match matchClose (text.drop startIdx) 0 [] with
      | some jsonStr =>
        (match loadsE jsonStr with
         | .ok v => .ok (some v)
         | .error .otherExc => .error .otherExc
         | .error .jsonDecodeError =>
           match loadsE (applyFixes jsonStr) with
           | .ok v => .ok (some v)
           | .error _ => .ok none)
      | none =>
        let objs := objScan text startIdx
        if objs.isEmpty then .ok none
        else
          match loadsE (reconstruct objs) with
          | .ok v => .ok (some v)
          | .error .otherExc => .error .otherExc
          | .error .jsonDecodeError =>
            match loadsE (applyFixes (reconstruct objs)) with
            | .ok v => .ok (some v)
            | .error _ => .ok none

def extract_json_from_text (text : List Char) : Option Json :=
  match extractE text with
  | .ok r => r
  | .error _ => none

/-! Concrete inputs for the extraction claims. -/

/-- The valid JSON array text whose single string contains two fences. -/
def cexFenceArr : List Char :=
  ['[', '"', '`', '`', '`', 'a', '`', '`', '`', '"', ']']

/-- A valid array of two objects where the first object's string value
contains a closing brace, truncated inside the second object. -/
def cexTruncObj : List Char :=
  ['[', '{', '"', 'a', '"', ':', ' ', '"', '}', '"', '}', ',', ' ',
   '{', '"', 'b', '"', ':', ' ', '1']

/-- The untruncated form of `cexTruncObj`. -/
def cexTruncFull : List Char := cexTruncObj ++ ['}', ']']

/-- Wrapping a text in a fenced `json` code block. -/
def fenceWrap (t : List Char) : List Char :=
  '`' :: '`' :: '`' :: 'j' :: 's' :: 'o' :: 'n' :: '\n' ::
    (t ++ '\n' :: ['`', '`', '`'])

/-! Structural predicates for the truncated-array theorem (C3):
segments balanced over braces and brackets whose string literals carry
no brace/bracket characters (those would fool the naive counting). -/

/-- A segment properly nested over `\x7b \x7d [ ]`; every other
character (including quotes) is opaque noise to the counting loops. -/
inductive Bal : List Char → Prop where
  | nil : Bal []
  | plain (c : Char) (s : List Char) :
      c ∉ (['{', '}', '[', ']'] : List Char) → Bal s → Bal (c :: s)
  | brace (inner s : List Char) :
      Bal inner → Bal s → Bal ('{' :: (inner ++ '}' :: s))
  | brack (inner s : List Char) :
      Bal inner → Bal s → Bal ('[' :: (inner ++ ']' :: s))

/-- A complete top-level object token: `\x7b` body `\x7d` with balanced
inside. -/
def OTok (o : List Char) : Prop :=
  ∃ inner, o = '{' :: (inner ++ ['}']) ∧ Bal inner

/-- Every prefix of the dangling text keeps the brace depth at least
`bc`-relative positive: the truncated object never closes. -/
def brcOK : List Char → Int → Bool
  | [], _ => true
  | c :: r, bc =>
    if c = '{' then decide (1 ≤ bc + 1) && brcOK r (bc + 1)
    else if c = '}' then decide (1 ≤ bc - 1) && brcOK r (bc - 1)
    else decide (1 ≤ bc) && brcOK r bc

/-- Every prefix of the dangling text keeps the bracket count
nonnegative. -/
def krcOK : List Char → Int → Bool
  | [], _ => true
  | c :: r, kc =>
    if c = '[' then decide (0 ≤ kc + 1) && krcOK r (kc + 1)
    else if c = ']' then decide (0 ≤ kc - 1) && krcOK r (kc - 1)
    else decide (0 ≤ kc) && krcOK r kc

/-- The dangling tail after the last complete object: empty, or an
unfinished object (truncation strictly inside it). -/
def TruncStub (p : List Char) : Prop :=
  p = [] ∨ ∃ q, p = '{' :: q ∧ brcOK q 1 = true ∧ krcOK q 0 = true

/-- Separator text between objects: no brace or bracket characters. -/
def sepOK (s : List Char) : Bool :=
  s.all fun c => !(memB ['{', '}', '[', ']'] c)

/-- Interleave object texts with their following separators. -/
def glueOS (pairs : List (List Char × List Char)) : List Char :=
  (pairs.map fun p => p.1 ++ p.2).flatten

/-- Characters that could extend a number lexeme if appended. -/
def numExt (c : Char) : Bool :=
  isDigitC c || c = '.' || c = 'e' || c = 'E' || c = '+' || c = '-'

/-- The appended tail cannot change a number munch: either the parse
stopped at a full stopper character inside the original input, or it
consumed everything and the tail starts with a stopper (or is empty). -/
def numSafe : List Char → List Char → Prop
  | c :: _, _ => numExt c = false
  | [], tail => tail = [] ∨ ∃ c ts, tail = c :: ts ∧ numExt c = false

/-! Helper lemmas. -/

theorem decide_eq_symm {α : Type} [DecidableEq α] (a b : α) :
    decide (a = b) = decide (b = a) := by
  by_cases h : a = b
  · subst h; rfl
  · have h2 : ¬b = a := fun hb => h hb.symm
    simp [h, h2]

theorem memB_map_any (es : List String) (f : String → String) (x : String) :
    memB (es.map f) x = es.any fun e => decide (x = f e) := by
  induction es with
  | nil => rfl
  | cons e es ih =>
    simp only [List.map_cons, memB, List.any_cons] at ih ⊢
    rw [ih, decide_eq_symm (f e) x]

theorem any_or_distrib (es : List String) (p q : String → Bool) :
    (es.any fun e => p e || q e) = (es.any p || es.any q) := by
  induction es with
  | nil => rfl
  | cons e es ih =>
    simp only [List.any_cons, ih]
    cases p e <;> cases q e <;> cases es.any p <;> cases es.any q <;> rfl

theorem memB_eq_decide_mem {α : Type} [DecidableEq α] (xs : List α) (x : α) :
    memB xs x = decide (x ∈ xs) := by
  induction xs with
  | nil => rfl
  | cons y ys ih =>
    simp only [memB, List.any_cons] at ih ⊢
    rw [ih]
    by_cases hy : y = x
    · subst hy; simp [List.mem_cons]
    · have hxy : ¬x = y := fun h => hy h.symm
      simp [List.mem_cons, hy, hxy]

/-- C4: `filter_by_entities` keeps, in input order, exactly the triples
whose lower-cased subject or object equals the lower-casing of a listed
entity (include mode), resp. exactly those where neither does (exclude
mode); both outputs are subsequences of the input. -/
theorem c4_filter_by_entities (ts : List Triple) (es : List String) :
    filter_by_entities ts es true = ts.filter (specEntityMatch es)
    ∧ filter_by_entities ts es false = ts.filter (fun t => !specEntityMatch es t)
    ∧ (filter_by_entities ts es true).Sublist ts
    ∧ (filter_by_entities ts es false).Sublist ts := by
  have hpt : ∀ t : Triple,
      ((memB (es.map pyLower) (pyLower (t.subject.getD "")) ||
        memB (es.map pyLower) (pyLower (t.object.getD "")))) =
      specEntityMatch es t := by
    intro t
    rw [memB_map_any, memB_map_any, ← any_or_distrib]
    rfl
  refine ⟨?_, ?_, ?_, ?_⟩
  · unfold filter_by_entities
    refine List.filter_congr ?_
    intro t _
    simp only [Bool.true_and, Bool.not_true, Bool.false_and, Bool.or_false]
    exact hpt t
  · unfold filter_by_entities
    refine List.filter_congr ?_
    intro t _
    simp only [Bool.false_and, Bool.not_false, Bool.true_and, Bool.false_or]
    rw [← hpt t]
  · exact List.filter_sublist ts
  · exact List.filter_sublist ts

/-- C7: filtering by the same confidence bounds twice equals filtering
once. -/
theorem c7_filter_by_confidence_idempotent (ts : List Triple) (mn mx : ℚ) :
    filter_by_confidence (filter_by_confidence ts mn mx) mn mx =
      filter_by_confidence ts mn mx := by
  unfold filter_by_confidence
  rw [List.filter_filter]
  refine List.filter_congr ?_
  intro t _
  cases h1 : decide (mn ≤ t.confidence.getD 1) <;>
    cases h2 : decide (t.confidence.getD 1 ≤ mx) <;> simp [h1, h2]

/-- C9: a triple with a missing field is treated by every filter as
carrying the fixed default: confidence 1.0, inferred false, chunk 0,
and empty strings for subject/object/predicate. -/
theorem c9_missing_field_defaults (ts : List Triple) (t : Triple) (mn mx : ℚ)
    (chunks : List Int) (es : List String) (ii io im : Bool)
    (hc : t.confidence = none) (hi : t.inferred = none) (hk : t.chunk = none)
    (hs : t.subject = none) (ho : t.object = none) (hp : t.predicate = none) :
    (filter_by_confidence (t :: ts) mn mx =
      (if mn ≤ 1 ∧ 1 ≤ mx then [t] else []) ++ filter_by_confidence ts mn mx)
    ∧ (filter_by_inference_status (t :: ts) ii io =
      (if io then [t] else []) ++ filter_by_inference_status ts ii io)
    ∧ (filter_by_chunk (t :: ts) chunks =
      (if (0 : Int) ∈ chunks then [t] else []) ++ filter_by_chunk ts chunks)
    ∧ (filter_by_entities (t :: ts) es im =
      (if (memB (es.map pyLower) "" = im) then [t] else []) ++
        filter_by_entities ts es im)
    ∧ (filter_by_relationships (t :: ts) es im =
      (if (memB (es.map pyLower) "" = im) then [t] else []) ++
        filter_by_relationships ts es im) := by
  refine ⟨?_, ?_, ?_, ?_, ?_⟩
  · unfold filter_by_confidence
    rw [List.filter_cons]
    simp only [hc, Option.getD_none]
    by_cases h1 : mn ≤ 1 <;> by_cases h2 : (1 : ℚ) ≤ mx <;>
      simp [h1, h2]
  · unfold filter_by_inference_status
    rw [List.filter_cons]
    simp only [hi, Option.getD_none]
    cases io <;> simp
  · unfold filter_by_chunk
    rw [List.filter_cons]
    simp only [hk, Option.getD_none, memB_eq_decide_mem]
    by_cases h : (0 : Int) ∈ chunks <;> simp [h]
  · unfold filter_by_entities
    rw [List.filter_cons]
    simp only [hs, ho, Option.getD_none]
    have htl : pyLower "" = "" := rfl
    rw [htl]
    cases hmem : memB (es.map pyLower) "" <;> cases im <;> simp [hmem]
  · unfold filter_by_relationships
    rw [List.filter_cons]
    simp only [hp, Option.getD_none]
    have htl : pyLower "" = "" := rfl
    rw [htl]
    cases hmem : memB (es.map pyLower) "" <;> cases im <;> simp [hmem]


/-- C9 witness: a triple with every field missing, concrete bounds and
filter arguments. -/
theorem c9_missing_field_defaults_witness :
    (filter_by_confidence [blankTriple] (1 / 2) 1 =
      (if (1 : ℚ) / 2 ≤ 1 ∧ (1 : ℚ) ≤ 1 then [blankTriple] else []) ++
        filter_by_confidence [] (1 / 2) 1)
    ∧ (filter_by_inference_status [blankTriple] true false =
      (if false then [blankTriple] else []) ++ filter_by_inference_status [] true false)
    ∧ (filter_by_chunk [blankTriple] [0, 2] =
      (if (0 : Int) ∈ [0, 2] then [blankTriple] else []) ++ filter_by_chunk [] [0, 2])
    ∧ (filter_by_entities [blankTriple] ["A"] true =
      (if (memB (["A"].map pyLower) "" = true) then [blankTriple] else []) ++
        filter_by_entities [] ["A"] true)
    ∧ (filter_by_relationships [blankTriple] ["A"] true =
      (if (memB (["A"].map pyLower) "" = true) then [blankTriple] else []) ++
        filter_by_relationships [] ["A"] true) :=
  c9_missing_field_defaults ([] : List Triple) blankTriple (1 / 2) 1 [0, 2] ["A"]
    true false true rfl rfl rfl rfl rfl rfl

/-- C1: evaluating `get_subgraph_around_entity` on the spec's concrete
scenario.  The adjacency dict is keyed by the original-case entity names
while the BFS starts from the lower-cased center, so the search finds no
neighbors of `"a"` and both calls return the empty list instead of the
triples around `"A"` that the spec promises. -/
theorem c1_subgraph_case_mismatch :
    get_subgraph_around_entity demoTriples "A" 1 = []
    ∧ get_subgraph_around_entity demoTriples "A" 2 = [] := by
  constructor <;> decide

/-! Lemmas on the export result dict. -/

theorem resInsert_lookup_self (m : List (String × FormatResult)) (k : String)
    (v : FormatResult) : resLookup (resInsert m k v) k = some v := by
  induction m with
  | nil => simp [resInsert, resLookup]
  | cons p r ih =>
    obtain ⟨k0, v0⟩ := p
    by_cases h : k0 = k <;> simp [resInsert, resLookup, h, ih]

theorem resInsert_lookup_ne (m : List (String × FormatResult)) (k kx : String)
    (v : FormatResult) (h : kx ≠ k) :
    resLookup (resInsert m kx v) k = resLookup m k := by
  induction m with
  | nil => simp [resInsert, resLookup, h]
  | cons p r ih =>
    obtain ⟨k0, v0⟩ := p
    unfold resInsert
    by_cases h0 : k0 = kx
    · rw [if_pos h0]
      subst h0
      simp [resLookup, h]
    · rw [if_neg h0]
      simp only [resLookup]
      by_cases h1 : k0 = k <;> simp [h1, ih]

theorem emfStep_lookup_ne (w : WriteFS) (tr : List Triple) (b : String)
    (acc : List (String × FormatResult)) (g f : String) (h : g ≠ f) :
    resLookup (emfStep w tr b acc g) f = resLookup acc f := by
  unfold emfStep
  by_cases hk : knownFormat g
  · simp only [hk, if_true]
    cases runExport w tr (b ++ "." ++ g) g <;>
      simp [resInsert_lookup_ne _ _ _ _ h]
  · simp [hk]

theorem emfStep_lookup_self_known (w : WriteFS) (tr : List Triple) (b : String)
    (acc : List (String × FormatResult)) (f : String) (hk : knownFormat f = true) :
    resLookup (emfStep w tr b acc f) f = some (formatOutcome w tr b f) := by
  unfold emfStep formatOutcome
  simp only [hk, if_true]
  cases runExport w tr (b ++ "." ++ f) f <;> simp [resInsert_lookup_self]

theorem emfLoop_lookup_not_mem (w : WriteFS) (tr : List Triple) (b : String)
    (fs : List String) : ∀ (acc : List (String × FormatResult)) (f : String),
    f ∉ fs → resLookup (fs.foldl (emfStep w tr b) acc) f = resLookup acc f := by
  induction fs with
  | nil => intro acc f _; rfl
  | cons g r ih =>
    intro acc f hf
    rw [List.foldl_cons, ih _ _ (fun h => hf (List.mem_cons_of_mem _ h))]
    exact emfStep_lookup_ne w tr b acc g f (fun h => hf (h ▸ List.mem_cons_self _ _))

theorem emfLoop_lookup_mem (w : WriteFS) (tr : List Triple) (b : String)
    (fs : List String) : ∀ (acc : List (String × FormatResult)) (f : String),
    f ∈ fs → knownFormat f = true →
    resLookup (fs.foldl (emfStep w tr b) acc) f = some (formatOutcome w tr b f) := by
  induction fs with
  | nil => intro _ _ h _; cases h
  | cons g r ih =>
    intro acc f hf hk
    rw [List.foldl_cons]
    by_cases hfr : f ∈ r
    · exact ih _ _ hfr hk
    · have hfg : f = g := by
        rcases List.mem_cons.mp hf with h | h
        · exact h
        · exact absurd h hfr
      subst hfg
      rw [emfLoop_lookup_not_mem w tr b r _ f hfr]
      exact emfStep_lookup_self_known w tr b acc f hk

/-- C6: for every requested known format, `export_multiple_formats`
records exactly the outcome of that format's own export in the result
map — an error entry with the message when its export raises, a success
entry with path and statistics when it returns — independently of every
other requested format, and the function itself never raises (it is a
total function into the result map). -/
theorem c6_export_error_isolation (w : WriteFS) (triples : List Triple)
    (base : String) (formats : List String) (f : String)
    (hf : f ∈ formats) (hk : knownFormat f = true) :
    resLookup (export_multiple_formats w triples base (some formats)) f =
      some (formatOutcome w triples base f) := by
  unfold export_multiple_formats
  exact emfLoop_lookup_mem w triples base formats [] f hf hk

/-- C6 witness: exporting to json and csv where the json path is invalid;
csv still succeeds and is recorded so, json is recorded as the error. -/
theorem c6_export_error_isolation_witness :
    (resLookup (export_multiple_formats demoFS demoTriples "bad" (some ["json", "csv"]))
      "json" = some (formatOutcome demoFS demoTriples "bad" "json"))
    ∧ (resLookup (export_multiple_formats demoFS demoTriples "bad" (some ["json", "csv"]))
      "csv" = some (formatOutcome demoFS demoTriples "bad" "csv"))
    ∧ formatOutcome demoFS demoTriples "bad" "json" = .failed "boom"
    ∧ formatOutcome demoFS demoTriples "bad" "csv" = .succeeded "bad.csv" (.csvStats 2) :=
  ⟨c6_export_error_isolation demoFS demoTriples "bad" ["json", "csv"] "json"
      (by decide) (by decide),
   c6_export_error_isolation demoFS demoTriples "bad" ["json", "csv"] "csv"
      (by decide) (by decide),
   by decide, by decide⟩

theorem resKeys_resInsert (m : List (String × FormatResult)) (k : String)
    (v : FormatResult) :
    resKeys (resInsert m k v) =
      if memB (resKeys m) k then resKeys m else resKeys m ++ [k] := by
  induction m with
  | nil => simp [resInsert, resKeys, memB]
  | cons p r ih =>
    obtain ⟨k0, v0⟩ := p
    by_cases h : k0 = k
    · subst h
      simp [resInsert, resKeys, memB, List.any_cons]
    · simp only [resInsert, resKeys, memB, List.any_cons, if_neg h, List.map_cons] at ih ⊢
      rw [ih]
      have hd : decide (k0 = k) = false := by simp [h]
      rw [hd]
      by_cases hm : List.any (List.map Prod.fst r) (fun y => decide (y = k)) = true <;>
        simp [hm]

theorem emfStep_keys (w : WriteFS) (tr : List Triple) (b : String)
    (acc : List (String × FormatResult)) (g : String) :
    resKeys (emfStep w tr b acc g) =
      if knownFormat g then
        (if memB (resKeys acc) g then resKeys acc else resKeys acc ++ [g])
      else resKeys acc := by
  unfold emfStep
  by_cases hk : knownFormat g
  · simp only [hk, if_true]
    cases runExport w tr (b ++ "." ++ g) g <;> rw [resKeys_resInsert]
  · simp [hk]

theorem emfLoop_keys (w : WriteFS) (tr : List Triple) (b : String)
    (fs : List String) : ∀ (acc : List (String × FormatResult)),
    resKeys (fs.foldl (emfStep w tr b) acc) =
      resKeys acc ++ freshKeys (resKeys acc) (fs.filter knownFormat) := by
  induction fs with
  | nil => intro acc; simp [freshKeys]
  | cons g r ih =>
    intro acc
    rw [List.foldl_cons, ih]
    by_cases hk : knownFormat g
    · rw [List.filter_cons_of_pos hk, emfStep_keys]
      simp only [hk, if_true]
      by_cases hm : memB (resKeys acc) g
      · simp [freshKeys, hm]
      · simp [freshKeys, hm]
    · rw [List.filter_cons_of_neg (by simp [hk]), emfStep_keys]
      simp [hk]

theorem emfLoop_lookup_unknown (w : WriteFS) (tr : List Triple) (b : String)
    (fs : List String) : ∀ (acc : List (String × FormatResult)) (f : String),
    knownFormat f = false →
    resLookup (fs.foldl (emfStep w tr b) acc) f = resLookup acc f := by
  induction fs with
  | nil => intro _ _ _; rfl
  | cons g r ih =>
    intro acc f hf
    rw [List.foldl_cons, ih _ _ hf]
    by_cases hkg : knownFormat g
    · refine emfStep_lookup_ne w tr b acc g f ?_
      intro h
      rw [h, hf] at hkg
      exact absurd hkg (by simp)
    · unfold emfStep
      simp [hkg]

/-- C10: unknown requested formats leave no entry at all in the result
map, whose keys are exactly the known requested formats in first-request
order; the batch pipeline's `"html"` request is silently dropped; and a
`none` formats argument means the default `json`, `csv`, `graphml`. -/
theorem c10_unknown_formats (w : WriteFS) (triples : List Triple) (base : String) :
    (∀ (fs : List String) (f : String), knownFormat f = false →
      resLookup (export_multiple_formats w triples base (some fs)) f = none)
    ∧ (∀ fs : List String,
      resKeys (export_multiple_formats w triples base (some fs)) =
        freshKeys [] (fs.filter knownFormat))
    ∧ resKeys (export_multiple_formats w triples base (some ["json", "csv", "html"])) =
        ["json", "csv"]
    ∧ export_multiple_formats w triples base none =
        export_multiple_formats w triples base (some ["json", "csv", "graphml"]) := by
  have hkeys : ∀ fs : List String,
      resKeys (export_multiple_formats w triples base (some fs)) =
        freshKeys [] (fs.filter knownFormat) := by
    intro fs
    unfold export_multiple_formats
    exact emfLoop_keys w triples base fs []
  refine ⟨?_, hkeys, ?_, rfl⟩
  · intro fs f hf
    exact emfLoop_lookup_unknown w triples base fs [] f hf
  · rw [hkeys]
    decide

/-- C10 witness: the concrete `['json','csv','html']` request of the
batch pipeline, on a concrete file system and triples. -/
theorem c10_unknown_formats_witness :
    resLookup (export_multiple_formats okFS demoTriples "g" (some ["json", "csv", "html"]))
      "html" = none
    ∧ resKeys (export_multiple_formats okFS demoTriples "g" (some ["json", "csv", "html"])) =
      ["json", "csv"] :=
  ⟨(c10_unknown_formats okFS demoTriples "g").1 ["json", "csv", "html"] "html" (by decide),
   (c10_unknown_formats okFS demoTriples "g").2.2.1⟩

/-- C8: the batch analysis depends only on the records with status
`"success"` (so throughput metrics are computed over those alone), and a
batch with no successful record yields the distinct
`no_successful_results` outcome, reached before any division. -/
theorem c8_analyze_batch_results (rs : List (String × FileResult)) :
    analyze_batch_results rs =
      analyze_batch_results (rs.filter fun p => decide (p.2.status = "success"))
    ∧ ((∀ p ∈ rs, p.2.status ≠ "success") →
      analyze_batch_results rs = .noSuccessfulResults) := by
  constructor
  · unfold analyze_batch_results
    congr 1
    induction rs with
    | nil => rfl
    | cons p r ih =>
      by_cases h : p.2.status = "success" <;>
        simp [List.filter_cons, List.map_cons, h, ih]
  · intro hall
    unfold analyze_batch_results
    have hnil : ((rs.map Prod.snd).filter fun r => decide (r.status = "success")) = [] := by
      rw [List.filter_eq_nil_iff]
      intro r hr
      rcases List.mem_map.mp hr with ⟨p, hp, hpr⟩
      simp only [decide_eq_true_eq]
      exact hpr ▸ hall p hp
    rw [hnil]
    rfl

/-- C8 witness: a concrete batch whose two records both failed. -/
theorem c8_analyze_batch_results_witness :
    analyze_batch_results failedBatch =
      analyze_batch_results (failedBatch.filter fun p => decide (p.2.status = "success"))
    ∧ analyze_batch_results failedBatch = .noSuccessfulResults :=
  ⟨(c8_analyze_batch_results failedBatch).1,
   (c8_analyze_batch_results failedBatch).2 (by decide)⟩

/-! Lemmas for the extraction recovery. -/

theorem loadsE_not_other (cs : List Char) : loadsE cs ≠ .error .otherExc := by
  unfold loadsE
  cases loadsL cs <;> simp

/-- C5: on every input the extraction returns normally — the exception
channel is never used, and every parse failure in every recovery stage
ends in the `None` outcome that `extract_json_from_text` returns. -/
theorem c5_extract_total (t : List Char) :
    ∃ r, extractE t = .ok r ∧ extract_json_from_text t = r := by
  have key : ∃ r, extractE t = .ok r := by
    simp only [extractE]
    repeat' split
    all_goals first
      | exact ⟨_, rfl⟩
      | (exact absurd (by assumption) (loadsE_not_other _))
  obtain ⟨r, hr⟩ := key
  refine ⟨r, hr, ?_⟩
  unfold extract_json_from_text
  rw [hr]

theorem fenceSearch_eq_none (t : List Char) (h : containsTriple t = false) :
    fenceSearch t = none := by
  induction t with
  | nil => rfl
  | cons c cs ih =>
    simp only [containsTriple, Bool.or_eq_false_iff] at h
    simp [fenceSearch, h.1, ih h.2]

theorem dropWhileLen (p : Char → Bool) (l : List Char) :
    (l.dropWhile p).length ≤ l.length := by
  induction l with
  | nil => simp
  | cons c cs ih =>
    rw [List.dropWhile_cons]
    by_cases h : p c
    · simp only [h, if_true, List.length_cons]
      omega
    · simp [h]

theorem dropWhile_append_self (p : Char → Bool) (t x : List Char)
    (ht : t.dropWhile p = t) (hne : t ≠ []) :
    (t ++ x).dropWhile p = t ++ x := by
  cases t with
  | nil => exact absurd rfl hne
  | cons c cs =>
    by_cases hc : p c
    · exfalso
      rw [List.dropWhile_cons, if_pos hc] at ht
      have := dropWhileLen p cs
      rw [ht] at this
      simp at this
    · simp [List.dropWhile_cons, hc]

theorem pyStrip_dropWhile (t : List Char) (h : pyStrip t = t) :
    t.dropWhile isPyWs = t := by
  have hlen2 : t.length ≤ (t.dropWhile isPyWs).length := by
    conv_lhs => rw [← h]
    unfold pyStrip
    rw [List.length_reverse]
    calc ((t.dropWhile isPyWs).reverse.dropWhile isPyWs).length
        ≤ (t.dropWhile isPyWs).reverse.length := dropWhileLen _ _
      _ = (t.dropWhile isPyWs).length := List.length_reverse _
  cases t with
  | nil => rfl
  | cons c cs =>
    by_cases hc : isPyWs c
    · exfalso
      rw [List.dropWhile_cons, if_pos hc] at hlen2
      have := dropWhileLen isPyWs cs
      simp at hlen2
      omega
    · simp [List.dropWhile_cons, hc]

theorem pyStrip_reverse_dropWhile (t : List Char) (h : pyStrip t = t) :
    t.reverse.dropWhile isPyWs = t.reverse := by
  have h1 := pyStrip_dropWhile t h
  unfold pyStrip at h
  rw [h1] at h
  have := congrArg List.reverse h
  rwa [List.reverse_reverse] at this

theorem pyStrip_append_nl (t : List Char) (h : pyStrip t = t) :
    pyStrip (t ++ ['\n']) = t := by
  cases ht : t with
  | nil => rfl
  | cons c cs =>
    rw [← ht]
    have h1 := pyStrip_dropWhile t h
    have h2 := pyStrip_reverse_dropWhile t h
    unfold pyStrip
    rw [dropWhile_append_self isPyWs t ['\n'] h1 (by rw [ht]; simp)]
    rw [List.reverse_append]
    show (('\n' :: t.reverse).dropWhile isPyWs).reverse = t
    rw [List.dropWhile_cons]
    norm_num [isPyWs]
    rw [h2, List.reverse_reverse]

theorem containsTriple_append_nl (t ys : List Char) (h : containsTriple t = false) :
    containsTriple (t ++ '\n' :: ys) = containsTriple ('\n' :: ys) := by
  induction t with
  | nil => rfl
  | cons c cs ih =>
    simp only [containsTriple, Bool.or_eq_false_iff] at h
    rw [List.cons_append]
    show (startsWithL tripleTick (c :: (cs ++ '\n' :: ys)) ||
      containsTriple (cs ++ '\n' :: ys)) = _
    rw [ih h.2]
    have h2 : startsWithL tripleTick (c :: (cs ++ '\n' :: ys)) = false := by
      cases cs with
      | nil => simp [startsWithL, tripleTick]
      | cons d cs' =>
        cases cs' with
        | nil => simp [startsWithL, tripleTick]
        | cons e cs'' =>
          have := h.1
          simp only [startsWithL, tripleTick] at this ⊢
          simpa using this
    rw [h2, Bool.false_or]

theorem takeUntilTriple_fence (u : List Char)
    (hu : containsTriple (u ++ ['`', '`']) = false) :
    takeUntilTriple (u ++ tripleTick) = some u := by
  induction u with
  | nil => rfl
  | cons c cs ih =>
    simp only [List.cons_append, containsTriple, Bool.or_eq_false_iff] at hu
    have h2 : startsWithL tripleTick (c :: (cs ++ tripleTick)) = false := by
      cases cs with
      | nil => simpa [startsWithL, tripleTick] using hu.1
      | cons d cs' =>
        cases cs' with
        | nil => simpa [startsWithL, tripleTick] using hu.1
        | cons e cs'' =>
          have := hu.1
          simp only [startsWithL, tripleTick] at this ⊢
          simpa using this
    rw [List.cons_append]
    unfold takeUntilTriple
    rw [h2]
    simp only [Bool.false_eq_true, if_false]
    rw [ih hu.2]

theorem fenceSearch_fenceWrap (t : List Char) (hfence : containsTriple t = false)
    (hstrip : pyStrip t = t) (hne : t ≠ []) :
    fenceSearch (fenceWrap t) = some t := by
  have h1 : t.dropWhile isPyWs = t := pyStrip_dropWhile t hstrip
  have hTU : takeUntilTriple (t ++ '\n' :: tripleTick) = some (t ++ ['\n']) := by
    have hsplit : (t ++ ['\n']) ++ tripleTick = t ++ '\n' :: tripleTick := by simp
    rw [← hsplit]
    refine takeUntilTriple_fence (t ++ ['\n']) ?_
    rw [List.append_assoc]
    show containsTriple (t ++ '\n' :: ['`', '`']) = false
    rw [containsTriple_append_nl t ['`', '`'] hfence]
    decide
  have hd3 : List.drop 3 ('`' :: '`' :: '`' :: 'j' :: 's' :: 'o' :: 'n' :: '\n' ::
      (t ++ '\n' :: ['`', '`', '`'])) =
      'j' :: 's' :: 'o' :: 'n' :: '\n' :: (t ++ '\n' :: ['`', '`', '`']) := rfl
  have hd7 : List.drop 7 ('`' :: '`' :: '`' :: 'j' :: 's' :: 'o' :: 'n' :: '\n' ::
      (t ++ '\n' :: ['`', '`', '`'])) = '\n' :: (t ++ '\n' :: ['`', '`', '`']) := rfl
  show fenceSearch ('`' :: '`' :: '`' :: 'j' :: 's' :: 'o' :: 'n' :: '\n' ::
    (t ++ '\n' :: ['`', '`', '`'])) = some t
  unfold fenceSearch
  rw [if_pos (by simp [startsWithL, tripleTick])]
  rw [hd3]
  rw [if_pos (by simp [startsWithL]), hd7]
  rw [List.dropWhile_cons, if_pos (by decide)]
  rw [dropWhile_append_self isPyWs t ('\n' :: ['`', '`', '`']) h1 hne]
  rw [show t ++ '\n' :: ['`', '`', '`'] = t ++ '\n' :: tripleTick from rfl, hTU]
  simp only [Option.map_some']
  rw [pyStrip_append_nl t hstrip]

/-- C2 counterexample: a valid JSON array whose one string contains two
backtick fences; the claim says the code returns the parsed array, but
the fence regex fires, replaces the text by the inner capture `a`, and
extraction returns `None`. -/
theorem c2_counterexample :
    loadsL cexFenceArr = .ok (.arr [.str "```a```"])
    ∧ extract_json_from_text cexFenceArr = none :=
  ⟨rfl, rfl⟩

/-- C2 amended: for every text that is a valid JSON array and contains
no triple-backtick sequence, extraction returns exactly the parsed
array; and the same array wrapped as a fenced ```` ```json ````
code block (the array text carrying no leading/trailing whitespace, so
that the capture's `strip()` returns it unchanged) also extracts to
exactly the parsed array. -/
theorem c2_array_roundtrip (t : List Char) (vs : List Json)
    (hfence : containsTriple t = false)
    (hparse : loadsL t = .ok (.arr vs)) :
    extract_json_from_text t = some (.arr vs)
    ∧ (pyStrip t = t → extract_json_from_text (fenceWrap t) = some (.arr vs)) := by
  have hE : loadsE t = .ok (.arr vs) := by unfold loadsE; rw [hparse]
  constructor
  · have hfs := fenceSearch_eq_none t hfence
    unfold extract_json_from_text
    simp only [extractE, hfs, hE]
  · intro hstrip
    have hne : t ≠ [] := by
      intro h
      rw [h, show loadsL [] = .error () from rfl] at hparse
      exact Except.noConfusion hparse
    have hfs2 := fenceSearch_fenceWrap t hfence hstrip hne
    unfold extract_json_from_text
    simp only [extractE, hfs2, hE]

/-- C3 counterexample: the valid array `[{"a": "\x7d"}, {"b": 1}]`
truncated inside its second object.  The claim says the complete first
object is recovered, but the brace inside the first object's string
value derails the counting scanner (it extracts the broken slice
`{"a": "\x7d` whose reconstruction cannot be parsed or repaired) and
extraction returns `None`. -/
theorem c3_counterexample :
    loadsL cexTruncFull =
      .ok (.arr [.obj [("a", .str "\x7d")], .obj [("b", .num "1")]])
    ∧ extract_json_from_text cexTruncObj = none :=
  ⟨rfl, rfl⟩

/-- A concrete array text for the C2 witness. -/
theorem c2_array_roundtrip_witness :
    extract_json_from_text ['[', '1', ']'] = some (.arr [.num "1"])
    ∧ extract_json_from_text (fenceWrap ['[', '1', ']']) = some (.arr [.num "1"]) := by
  have h := c2_array_roundtrip ['[', '1', ']'] [.num "1"] rfl rfl
  exact ⟨h.1, h.2 rfl⟩

/-! The two counting loops on the structured truncated input. -/

theorem sepChar_ne (c : Char)
    (h : (!(memB (['{', '}', '[', ']'] : List Char) c)) = true) :
    c ≠ '{' ∧ c ≠ '}' ∧ c ≠ '[' ∧ c ≠ ']' := by
  have h2 : memB ['{', '}', '[', ']'] c = false := by simpa using h
  rw [memB_eq_decide_mem] at h2
  have h3 : ¬(c ∈ (['{', '}', '[', ']'] : List Char)) := by simpa using h2
  simp only [List.mem_cons, List.not_mem_nil, or_false] at h3
  push_neg at h3
  exact h3

/-- One step of the bracket-matching loop. -/
theorem matchClose_cons (c : Char) (rest : List Char) (cnt : Int) (tak : List Char) :
    matchClose (c :: rest) cnt tak =
      if c = ']' then
        (if cnt - 1 = 0 then some ((c :: tak).reverse)
         else matchClose rest (cnt - 1) (c :: tak))
      else if c = '[' then matchClose rest (cnt + 1) (c :: tak)
      else matchClose rest cnt (c :: tak) := rfl

theorem matchClose_close (rest : List Char) (cnt : Int) (tak : List Char) :
    matchClose (']' :: rest) cnt tak =
      if cnt - 1 = 0 then some ((']' :: tak).reverse)
      else matchClose rest (cnt - 1) (']' :: tak) := by
  rw [matchClose_cons]; simp

theorem matchClose_open (rest : List Char) (cnt : Int) (tak : List Char) :
    matchClose ('[' :: rest) cnt tak = matchClose rest (cnt + 1) ('[' :: tak) := by
  rw [matchClose_cons]; simp

theorem krcOK_close (r : List Char) (kc : Int) :
    krcOK (']' :: r) kc = (decide (0 ≤ kc - 1) && krcOK r (kc - 1)) := by
  simp [krcOK]

theorem krcOK_open (r : List Char) (kc : Int) :
    krcOK ('[' :: r) kc = (decide (0 ≤ kc + 1) && krcOK r (kc + 1)) := by
  simp [krcOK]

theorem krcOK_other (c : Char) (r : List Char) (kc : Int)
    (h1 : c ≠ '[') (h2 : c ≠ ']') :
    krcOK (c :: r) kc = (decide (0 ≤ kc) && krcOK r kc) := by
  simp [krcOK, h1, h2]

theorem sepOK_cons (c : Char) (cs : List Char) (h : sepOK (c :: cs) = true) :
    (c ≠ '{' ∧ c ≠ '}' ∧ c ≠ '[' ∧ c ≠ ']') ∧ sepOK cs = true := by
  simp only [sepOK, List.all_cons, Bool.and_eq_true] at h
  exact ⟨sepChar_ne c h.1, h.2⟩

theorem otok_bal (o : List Char) (h : OTok o) : Bal o := by
  obtain ⟨inner, rfl, hbi⟩ := h
  exact Bal.brace inner [] hbi Bal.nil

theorem matchClose_sep (s : List Char) :
    ∀ (_ : sepOK s = true) (r : List Char) (cnt : Int) (tak : List Char),
    matchClose (s ++ r) cnt tak = matchClose r cnt (s.reverse ++ tak) := by
  induction s with
  | nil => intro _ r cnt tak; simp
  | cons c cs ih =>
    intro hs r cnt tak
    obtain ⟨⟨_, _, hc3, hc4⟩, hcs⟩ := sepOK_cons c cs hs
    rw [List.cons_append, matchClose_cons]
    rw [if_neg hc4, if_neg hc3, ih hcs]
    rw [List.reverse_cons, List.append_assoc]
    rfl

theorem matchClose_bal (s : List Char) (hb : Bal s) :
    ∀ (r : List Char) (cnt : Int) (tak : List Char), 1 ≤ cnt →
    matchClose (s ++ r) cnt tak = matchClose r cnt (s.reverse ++ tak) := by
  induction hb with
  | nil => intro r cnt tak _; simp
  | plain c s hc _ ih =>
    intro r cnt tak hcnt
    have hc3 : c ≠ '[' := fun e => hc (by rw [e]; simp)
    have hc4 : c ≠ ']' := fun e => hc (by rw [e]; simp)
    rw [List.cons_append, matchClose_cons]
    rw [if_neg hc4, if_neg hc3, ih r cnt (c :: tak) hcnt]
    rw [List.reverse_cons, List.append_assoc]
    rfl
  | brace inner s hbi hbs ihi ihs =>
    intro r cnt tak hcnt
    rw [List.cons_append, matchClose_cons]
    rw [if_neg (by decide : ¬('{' = ']')), if_neg (by decide : ¬('{' = '['))]
    rw [List.append_assoc, List.cons_append]
    rw [ihi _ cnt _ hcnt]
    rw [matchClose_cons]
    rw [if_neg (by decide : ¬('}' = ']')), if_neg (by decide : ¬('}' = '['))]
    rw [ihs r cnt _ hcnt]
    congr 1
    simp [List.reverse_cons, List.reverse_append, List.append_assoc]
  | brack inner s hbi hbs ihi ihs =>
    intro r cnt tak hcnt
    rw [List.cons_append, matchClose_cons]
    rw [if_neg (by decide : ¬('[' = ']')), if_pos rfl]
    rw [List.append_assoc, List.cons_append]
    rw [ihi _ (cnt + 1) _ (by omega)]
    rw [matchClose_cons]
    rw [if_pos rfl, if_neg (by omega : ¬(cnt + 1 - 1 = 0))]
    rw [show (cnt + 1 - 1 : Int) = cnt from by ring]
    rw [ihs r cnt _ hcnt]
    congr 1
    simp [List.reverse_cons, List.reverse_append, List.append_assoc]

theorem matchClose_stub (q : List Char) :
    ∀ (kc cnt : Int) (tak : List Char),
    krcOK q kc = true → kc + 1 ≤ cnt → matchClose q cnt tak = none := by
  induction q with
  | nil => intro kc cnt tak _ _; rfl
  | cons c r ih =>
    intro kc cnt tak hk hrel
    by_cases hc1 : c = ']'
    · subst hc1
      rw [krcOK_close, Bool.and_eq_true, decide_eq_true_eq] at hk
      rw [matchClose_close, if_neg (by omega : ¬(cnt - 1 = 0))]
      exact ih (kc - 1) (cnt - 1) _ hk.2 (by omega)
    · by_cases hc2 : c = '['
      · subst hc2
        rw [krcOK_open, Bool.and_eq_true, decide_eq_true_eq] at hk
        rw [matchClose_open]
        exact ih (kc + 1) (cnt + 1) _ hk.2 (by omega)
      · rw [krcOK_other c r kc hc2 hc1, Bool.and_eq_true, decide_eq_true_eq] at hk
        rw [matchClose_cons, if_neg hc1, if_neg hc2]
        exact ih kc cnt _ hk.2 hrel

theorem matchClose_glue (pairs : List (List Char × List Char)) :
    ∀ (stub : List Char) (cnt : Int) (tak : List Char),
    (∀ p ∈ pairs, OTok p.1 ∧ sepOK p.2 = true) → TruncStub stub → 1 ≤ cnt →
    matchClose (glueOS pairs ++ stub) cnt tak = none := by
  induction pairs with
  | nil =>
    intro stub cnt tak _ hstub hcnt
    show matchClose ([] ++ stub) cnt tak = none
    rw [List.nil_append]
    rcases hstub with rfl | ⟨q, rfl, _, hkrc⟩
    · rfl
    · rw [matchClose_cons]
      rw [if_neg (by decide : ¬('{' = ']')), if_neg (by decide : ¬('{' = '['))]
      exact matchClose_stub q 0 cnt _ hkrc (by omega)
  | cons p rest ih =>
    obtain ⟨o, s⟩ := p
    intro stub cnt tak hp hstub hcnt
    have hglue : glueOS ((o, s) :: rest) = (o ++ s) ++ glueOS rest := by
      simp [glueOS]
    rw [hglue, List.append_assoc, List.append_assoc]
    have ho := (hp (o, s) (List.mem_cons_self _ _)).1
    have hs2 := (hp (o, s) (List.mem_cons_self _ _)).2
    rw [matchClose_bal o (otok_bal o ho) _ cnt tak hcnt]
    rw [matchClose_sep s hs2]
    exact ih stub cnt _ (fun p hmem => hp p (List.mem_cons_of_mem _ hmem)) hstub hcnt

/-! The complete-object scanner on the structured truncated input. -/

theorem objGo_cons (text : List Char) (c : Char) (rest : List Char) (i : Nat)
    (st cnt : Int) (acc : List (List Char)) :
    objGo text (c :: rest) i st cnt acc =
      if c = '{' then
        objGo text rest (i + 1) (if cnt = 0 then (i : Int) else st) (cnt + 1) acc
      else if c = '}' then
        (if cnt - 1 = 0 then
          objGo text rest (i + 1) st (cnt - 1) (acc ++ [pySliceI text st (i + 1)])
        else objGo text rest (i + 1) st (cnt - 1) acc)
      else objGo text rest (i + 1) st cnt acc := rfl

theorem objGo_open (text rest : List Char) (i : Nat) (st cnt : Int)
    (acc : List (List Char)) :
    objGo text ('{' :: rest) i st cnt acc =
      objGo text rest (i + 1) (if cnt = 0 then (i : Int) else st) (cnt + 1) acc := by
  rw [objGo_cons]; simp

theorem objGo_closeBrace (text rest : List Char) (i : Nat) (st cnt : Int)
    (acc : List (List Char)) :
    objGo text ('}' :: rest) i st cnt acc =
      (if cnt - 1 = 0 then
        objGo text rest (i + 1) st (cnt - 1) (acc ++ [pySliceI text st (i + 1)])
      else objGo text rest (i + 1) st (cnt - 1) acc) := by
  rw [objGo_cons]; simp

theorem objGo_other (text : List Char) (c : Char) (rest : List Char) (i : Nat)
    (st cnt : Int) (acc : List (List Char)) (h1 : c ≠ '{') (h2 : c ≠ '}') :
    objGo text (c :: rest) i st cnt acc = objGo text rest (i + 1) st cnt acc := by
  rw [objGo_cons, if_neg h1, if_neg h2]

theorem brcOK_open (r : List Char) (bc : Int) :
    brcOK ('{' :: r) bc = (decide (1 ≤ bc + 1) && brcOK r (bc + 1)) := by
  simp [brcOK]

theorem brcOK_close (r : List Char) (bc : Int) :
    brcOK ('}' :: r) bc = (decide (1 ≤ bc - 1) && brcOK r (bc - 1)) := by
  simp [brcOK]

theorem brcOK_other (c : Char) (r : List Char) (bc : Int)
    (h1 : c ≠ '{') (h2 : c ≠ '}') :
    brcOK (c :: r) bc = (decide (1 ≤ bc) && brcOK r bc) := by
  simp [brcOK, h1, h2]

theorem objGo_sep (text s : List Char) :
    ∀ (_ : sepOK s = true) (rest : List Char) (i : Nat) (st cnt : Int)
    (acc : List (List Char)),
    objGo text (s ++ rest) i st cnt acc = objGo text rest (i + s.length) st cnt acc := by
  induction s with
  | nil => intro _ rest i st cnt acc; simp
  | cons c cs ih =>
    intro hs rest i st cnt acc
    obtain ⟨⟨hc1, hc2, _, _⟩, hcs⟩ := sepOK_cons c cs hs
    rw [List.cons_append, objGo_other text c _ _ _ _ _ hc1 hc2, ih hcs]
    rw [show i + 1 + cs.length = i + (c :: cs).length from by
      simp only [List.length_cons]; omega]

theorem objGo_bal (text s : List Char) (hb : Bal s) :
    ∀ (rest : List Char) (i : Nat) (st cnt : Int) (acc : List (List Char)),
    1 ≤ cnt →
    objGo text (s ++ rest) i st cnt acc = objGo text rest (i + s.length) st cnt acc := by
  induction hb with
  | nil => intro rest i st cnt acc _; simp
  | plain c s hc _ ih =>
    intro rest i st cnt acc hcnt
    have hc1 : c ≠ '{' := fun e => hc (by rw [e]; simp)
    have hc2 : c ≠ '}' := fun e => hc (by rw [e]; simp)
    rw [List.cons_append, objGo_other text c _ _ _ _ _ hc1 hc2,
      ih rest (i + 1) st cnt acc hcnt]
    rw [show i + 1 + s.length = i + (c :: s).length from by
      simp only [List.length_cons]; omega]
  | brace inner s hbi hbs ihi ihs =>
    intro rest i st cnt acc hcnt
    rw [List.cons_append, objGo_open, if_neg (by omega : ¬(cnt = 0))]
    rw [List.append_assoc, List.cons_append]
    rw [ihi _ (i + 1) st (cnt + 1) acc (by omega)]
    rw [objGo_closeBrace, if_neg (by omega : ¬(cnt + 1 - 1 = 0))]
    rw [show (cnt + 1 - 1 : Int) = cnt from by ring]
    rw [ihs rest _ st cnt acc hcnt]
    rw [show i + 1 + inner.length + 1 + s.length =
        i + ('{' :: (inner ++ '}' :: s)).length from by
      simp only [List.length_cons, List.length_append]; omega]
  | brack inner s hbi hbs ihi ihs =>
    intro rest i st cnt acc hcnt
    rw [List.cons_append,
      objGo_other text '[' _ _ _ _ _ (by decide) (by decide)]
    rw [List.append_assoc, List.cons_append]
    rw [ihi _ (i + 1) st cnt acc hcnt]
    rw [objGo_other text ']' _ _ _ _ _ (by decide) (by decide)]
    rw [ihs rest _ st cnt acc hcnt]
    rw [show i + 1 + inner.length + 1 + s.length =
        i + ('[' :: (inner ++ ']' :: s)).length from by
      simp only [List.length_cons, List.length_append]; omega]

theorem objGo_stub (text q : List Char) :
    ∀ (bc : Int) (i : Nat) (st : Int) (acc : List (List Char)),
    brcOK q bc = true → objGo text q i st bc acc = acc := by
  induction q with
  | nil => intro bc i st acc _; rfl
  | cons c r ih =>
    intro bc i st acc hk
    by_cases hc1 : c = '{'
    · subst hc1
      rw [brcOK_open, Bool.and_eq_true, decide_eq_true_eq] at hk
      rw [objGo_open]
      exact ih (bc + 1) (i + 1) _ acc hk.2
    · by_cases hc2 : c = '}'
      · subst hc2
        rw [brcOK_close, Bool.and_eq_true, decide_eq_true_eq] at hk
        rw [objGo_closeBrace, if_neg (by omega : ¬(bc - 1 = 0))]
        exact ih (bc - 1) (i + 1) st acc hk.2
      · rw [brcOK_other c r bc hc1 hc2, Bool.and_eq_true, decide_eq_true_eq] at hk
        rw [objGo_other text c r _ _ _ _ hc1 hc2]
        exact ih bc (i + 1) st acc hk.2

theorem pySliceI_of_drop (text u rest : List Char) (i : Nat)
    (h : text.drop i = u ++ rest) :
    pySliceI text (i : Int) (i + u.length) = u := by
  simp only [pySliceI]
  rw [if_neg (by omega : ¬((i : Int) < 0))]
  rw [show ((i : Int)).toNat = i from by omega]
  rw [List.drop_take (i + u.length) i text]
  rw [show i + u.length - i = u.length from by omega]
  rw [h, List.take_left]

theorem objGo_obj (text o rest : List Char) (i : Nat) (st : Int)
    (acc : List (List Char)) (ho : OTok o) (hdrop : text.drop i = o ++ rest) :
    objGo text (o ++ rest) i st 0 acc =
      objGo text rest (i + o.length) (i : Int) 0 (acc ++ [o]) := by
  obtain ⟨inner, rfl, hbi⟩ := ho
  rw [List.cons_append, objGo_open, if_pos (show (0 : Int) = 0 from rfl)]
  rw [List.append_assoc, List.cons_append]
  rw [objGo_bal text inner hbi _ (i + 1) (i : Int) (0 + 1) acc (by omega)]
  rw [objGo_closeBrace, if_pos (show (0 : Int) + 1 - 1 = 0 from by ring)]
  have hslice : pySliceI text (i : Int) (i + 1 + inner.length + 1) =
      '{' :: (inner ++ ['}']) := by
    have hbase := pySliceI_of_drop text ('{' :: (inner ++ ['}'])) rest i hdrop
    rwa [show i + ('{' :: (inner ++ ['}'])).length = i + 1 + inner.length + 1 from by
      simp only [List.length_cons, List.length_append, List.length_nil]; omega] at hbase
  rw [hslice]
  rw [show ((0 : Int) + 1 - 1) = 0 from by ring]
  rw [show i + 1 + inner.length + 1 = i + ('{' :: (inner ++ ['}'])).length from by
    simp only [List.length_cons, List.length_append, List.length_nil]; omega]
  rw [List.nil_append]

theorem objGo_glue (text : List Char) (pairs : List (List Char × List Char)) :
    ∀ (stub : List Char) (i : Nat) (st : Int) (acc : List (List Char)),
    (∀ p ∈ pairs, OTok p.1 ∧ sepOK p.2 = true) → TruncStub stub →
    text.drop i = glueOS pairs ++ stub →
    objGo text (glueOS pairs ++ stub) i st 0 acc = acc ++ pairs.map Prod.fst := by
  induction pairs with
  | nil =>
    intro stub i st acc _ hstub _
    show objGo text ([] ++ stub) i st 0 acc = acc ++ []
    rw [List.nil_append, List.append_nil]
    rcases hstub with rfl | ⟨q, rfl, hbrc, _⟩
    · rfl
    · rw [objGo_open, if_pos (show (0 : Int) = 0 from rfl)]
      exact objGo_stub text q 1 (i + 1) _ acc hbrc
  | cons p rest ih =>
    obtain ⟨o, s⟩ := p
    intro stub i st acc hp hstub hdrop
    have hglue : glueOS ((o, s) :: rest) = (o ++ s) ++ glueOS rest := by
      simp [glueOS]
    rw [hglue] at hdrop ⊢
    rw [List.append_assoc, List.append_assoc] at hdrop ⊢
    have ho := (hp (o, s) (List.mem_cons_self _ _)).1
    have hs2 := (hp (o, s) (List.mem_cons_self _ _)).2
    rw [objGo_obj text o _ i st acc ho hdrop]
    rw [objGo_sep text s hs2]
    have hdrop2 : text.drop (i + o.length + s.length) = glueOS rest ++ stub := by
      have h1 : text.drop (i + o.length) = s ++ (glueOS rest ++ stub) := by
        have h0 := congrArg (List.drop o.length) hdrop
        rwa [List.drop_drop, List.drop_left] at h0
      have h2 := congrArg (List.drop s.length) h1
      rwa [List.drop_drop, List.drop_left] at h2
    rw [ih stub (i + o.length + s.length) (i : Int) (acc ++ [o])
      (fun p hmem => hp p (List.mem_cons_of_mem _ hmem)) hstub hdrop2]
    simp

theorem objScan_struct (sep0 : List Char) (pairs : List (List Char × List Char))
    (stub : List Char) (hsep0 : sepOK sep0 = true)
    (hp : ∀ p ∈ pairs, OTok p.1 ∧ sepOK p.2 = true) (hstub : TruncStub stub) :
    objScan ('[' :: (sep0 ++ (glueOS pairs ++ stub))) 0 = pairs.map Prod.fst := by
  unfold objScan
  rw [show ('[' :: (sep0 ++ (glueOS pairs ++ stub))).drop (0 + 1) =
    sep0 ++ (glueOS pairs ++ stub) from rfl]
  rw [objGo_sep _ sep0 hsep0]
  rw [objGo_glue _ pairs stub (0 + 1 + sep0.length) (-1) [] hp hstub ?hdrop]
  · rw [List.nil_append]
  case hdrop =>
    show (('[' :: sep0) ++ (glueOS pairs ++ stub)).drop (0 + 1 + sep0.length) = _
    rw [show 0 + 1 + sep0.length = ('[' :: sep0).length from by
      simp only [List.length_cons]; omega]
    rw [List.drop_left]

/-! Suffix-irrelevance of the parser: a successful parse of a prefix is
unchanged by appending input, provided a number munch cannot be
extended across the old end of input. -/

theorem startsWithL_cons_ne (p0 : Char) (ps : List Char) (c : Char) (X : List Char)
    (h : p0 ≠ c) : startsWithL (p0 :: ps) (c :: X) = false := by
  simp [startsWithL, h]

theorem startsWithL_cons_true (p0 : Char) (ps : List Char) (c : Char) (X : List Char)
    (h : startsWithL (p0 :: ps) (c :: X) = true) : p0 = c ∧ startsWithL ps X = true := by
  simpa [startsWithL] using h

theorem startsWithL_append (p : List Char) :
    ∀ (x tail : List Char), startsWithL p x = true → startsWithL p (x ++ tail) = true := by
  induction p with
  | nil => intro x tail _; rfl
  | cons p0 ps ih =>
    intro x tail h
    cases x with
    | nil => exact absurd h (by simp [startsWithL])
    | cons c xr =>
      obtain ⟨h1, h2⟩ := startsWithL_cons_true p0 ps c xr h
      rw [List.cons_append]
      simp [startsWithL, h1, ih xr tail h2]

theorem startsWithL_length (p : List Char) :
    ∀ (x : List Char), startsWithL p x = true → p.length ≤ x.length := by
  induction p with
  | nil => intro x _; simp
  | cons p0 ps ih =>
    intro x h
    cases x with
    | nil => exact absurd h (by simp [startsWithL])
    | cons c xr =>
      obtain ⟨_, h2⟩ := startsWithL_cons_true p0 ps c xr h
      simpa using ih xr h2

theorem skipWs_append (cs : List Char) :
    ∀ (d : Char) (w : List Char), skipWs cs = d :: w →
    ∀ (tail : List Char), skipWs (cs ++ tail) = d :: (w ++ tail) := by
  induction cs with
  | nil => intro d w h; exact absurd h (by simp [skipWs])
  | cons c cr ih =>
    intro d w h tail
    rw [List.cons_append]
    unfold skipWs at h ⊢
    rw [List.dropWhile_cons] at h ⊢
    by_cases hc : isJsonWs c = true
    · rw [if_pos hc] at h ⊢
      exact ih d w h tail
    · rw [if_neg hc] at h ⊢
      obtain ⟨rfl, rfl⟩ : c = d ∧ cr = w := by
        injection h with h1 h2; exact ⟨h1, h2⟩
      rfl

theorem dropWhile_append_stop (p : Char → Bool) (r : List Char) :
    ∀ (T : List Char), r.dropWhile p ≠ [] →
    (r ++ T).takeWhile p = r.takeWhile p ∧ (r ++ T).dropWhile p = r.dropWhile p ++ T := by
  induction r with
  | nil => intro T h; exact absurd rfl h
  | cons c cr ih =>
    intro T h
    rw [List.dropWhile_cons] at h
    by_cases hc : p c = true
    · rw [if_pos hc] at h
      obtain ⟨h1, h2⟩ := ih T h
      rw [List.cons_append]
      simp only [List.takeWhile_cons, List.dropWhile_cons, hc, if_true]
      exact ⟨by rw [h1], h2⟩
    · rw [if_neg hc] at h
      have hcf : p c = false := by simpa using hc
      rw [List.cons_append]
      simp only [List.takeWhile_cons, List.dropWhile_cons, hcf, Bool.false_eq_true,
        if_false]
      exact ⟨by simp, by simp⟩

theorem dropWhile_append_all (p : Char → Bool) (r : List Char) :
    ∀ (T : List Char), r.dropWhile p = [] → T.takeWhile p = [] →
    (r ++ T).takeWhile p = r ∧ (r ++ T).dropWhile p = T := by
  induction r with
  | nil =>
    intro T _ hT
    constructor
    · simpa using hT
    · have := List.takeWhile_append_dropWhile p T
      rw [hT] at this
      simpa using this
  | cons c cr ih =>
    intro T h hT
    rw [List.dropWhile_cons] at h
    by_cases hc : p c = true
    · rw [if_pos hc] at h
      obtain ⟨h1, h2⟩ := ih T h hT
      rw [List.cons_append, List.takeWhile_cons, List.dropWhile_cons, if_pos hc,
        if_pos hc, h1, h2]
      exact ⟨rfl, rfl⟩
    · rw [if_neg hc] at h
      exact absurd h (by simp)

theorem numExt_elim (c : Char) (h : numExt c = false) :
    isDigitC c = false ∧ c ≠ '.' ∧ c ≠ 'e' ∧ c ≠ 'E' ∧ c ≠ '+' ∧ c ≠ '-' := by
  simp only [numExt, Bool.or_eq_false_iff, decide_eq_false_iff_not] at h
  exact ⟨h.1.1.1.1.1, h.1.1.1.1.2, h.1.1.1.2, h.1.1.2, h.1.2, h.2⟩

theorem numSafe_digits (rest T : List Char) (hr : rest = [])
    (hs : numSafe rest T) : T.takeWhile isDigitC = [] := by
  subst hr
  rcases hs with rfl | ⟨c, ts, rfl, hc⟩
  · rfl
  · rw [List.takeWhile_cons, if_neg (by simp [(numExt_elim c hc).1])]

theorem digitRun_append (w T : List Char) (_hds : w.takeWhile isDigitC ≠ [])
    (hs : numSafe (w.dropWhile isDigitC) T) :
    (w ++ T).takeWhile isDigitC = w.takeWhile isDigitC ∧
    (w ++ T).dropWhile isDigitC = w.dropWhile isDigitC ++ T := by
  by_cases hr3 : w.dropWhile isDigitC = []
  · have hT := numSafe_digits _ T hr3 hs
    obtain ⟨h1, h2⟩ := dropWhile_append_all isDigitC w T hr3 hT
    have hw : w.takeWhile isDigitC = w := by
      have h3 := List.takeWhile_append_dropWhile isDigitC w
      rw [hr3] at h3
      simpa using h3
    rw [h1, h2, hw, hr3, List.nil_append]
    exact ⟨rfl, rfl⟩
  · exact dropWhile_append_stop isDigitC w T hr3

theorem pExp_append (r2 : List Char) (ep r3 T : List Char)
    (h : pExp r2 = (ep, r3)) (hs : numSafe r3 T) :
    pExp (r2 ++ T) = (ep, r3 ++ T) := by
  match r2 with
  | [] =>
    simp only [pExp] at h
    obtain ⟨rfl, rfl⟩ : ep = [] ∧ r3 = [] := by
      injection h with h1 h2; exact ⟨h1.symm, h2.symm⟩
    show pExp T = ([], [] ++ T)
    rw [List.nil_append]
    rcases hs with rfl | ⟨c, ts, rfl, hc⟩
    · rfl
    · obtain ⟨_, _, hce, hcE, _, _⟩ := numExt_elim c hc
      cases ts with
      | nil => rfl
      | cons s w => simp [pExp, hce, hcE]
  | [d] =>
    simp only [pExp] at h
    obtain ⟨rfl, rfl⟩ : ep = [] ∧ r3 = [d] := by
      injection h with h1 h2; exact ⟨h1.symm, h2.symm⟩
    have hd := numExt_elim d (by exact hs)
    cases T with
    | nil => simp [pExp]
    | cons t0 ts => simp [pExp, hd.2.2.1, hd.2.2.2.1]
  | d :: s :: w =>
    rw [show (d :: s :: w) ++ T = d :: s :: (w ++ T) from rfl]
    by_cases hd : (d = 'e' || d = 'E') = true
    case neg =>
      have hdf : (decide (d = 'e') || decide (d = 'E')) = false := by simpa using hd
      simp only [pExp, hdf, Bool.false_eq_true, if_false] at h ⊢
      obtain ⟨rfl, rfl⟩ : ep = [] ∧ r3 = d :: s :: w := by
        injection h with h1 h2; exact ⟨h1.symm, h2.symm⟩
      rfl
    case pos =>
    have hdne : numSafe (d :: s :: w) T → False := by
      intro hctr
      have he := numExt_elim d hctr
      rcases Bool.or_eq_true_iff.mp hd with h1 | h1
      · exact he.2.2.1 (by simpa using h1)
      · exact he.2.2.2.1 (by simpa using h1)
    by_cases hsign : (s = '+' || s = '-') = true
    · simp only [pExp, hd, hsign, if_true] at h ⊢
      by_cases hds : w.takeWhile isDigitC = []
      · rw [if_pos hds] at h
        obtain ⟨rfl, rfl⟩ : ep = [] ∧ r3 = d :: s :: w := by
          injection h with h1 h2; exact ⟨h1.symm, h2.symm⟩
        exact absurd hs (fun hh => hdne hh)
      · rw [if_neg hds] at h
        obtain ⟨rfl, rfl⟩ : ep = d :: s :: w.takeWhile isDigitC ∧
            r3 = w.dropWhile isDigitC := by
          injection h with h1 h2; exact ⟨h1.symm, h2.symm⟩
        obtain ⟨h1, h2⟩ := digitRun_append w T hds hs
        rw [h1, h2, if_neg hds]
    · have hsignf : (decide (s = '+') || decide (s = '-')) = false := by
        simpa using hsign
      simp only [pExp, hd, hsignf, if_true, Bool.false_eq_true, if_false] at h ⊢
      by_cases hds : (s :: w).takeWhile isDigitC = []
      · rw [if_pos hds] at h
        obtain ⟨rfl, rfl⟩ : ep = [] ∧ r3 = d :: s :: w := by
          injection h with h1 h2; exact ⟨h1.symm, h2.symm⟩
        exact absurd hs (fun hh => hdne hh)
      · rw [if_neg hds] at h
        obtain ⟨rfl, rfl⟩ : ep = d :: (s :: w).takeWhile isDigitC ∧
            r3 = (s :: w).dropWhile isDigitC := by
          injection h with h1 h2; exact ⟨h1.symm, h2.symm⟩
        obtain ⟨h1, h2⟩ := digitRun_append (s :: w) T hds hs
        rw [show s :: (w ++ T) = (s :: w) ++ T from rfl, h1, h2, if_neg hds]

theorem dropRun_append (r T : List Char)
    (hsafe : r.dropWhile isDigitC = [] → T.takeWhile isDigitC = []) :
    (r ++ T).takeWhile isDigitC = r.takeWhile isDigitC ∧
    (r ++ T).dropWhile isDigitC = r.dropWhile isDigitC ++ T := by
  by_cases hr : r.dropWhile isDigitC = []
  · obtain ⟨h1, h2⟩ := dropWhile_append_all isDigitC r T hr (hsafe hr)
    have hw : r.takeWhile isDigitC = r := by
      have h3 := List.takeWhile_append_dropWhile isDigitC r
      rw [hr] at h3
      simpa using h3
    rw [h1, h2, hw, hr, List.nil_append]
    exact ⟨rfl, rfl⟩
  · exact dropWhile_append_stop isDigitC r T hr

theorem numSafe_exp_digits (r2 ep r3 T : List Char)
    (hexp : pExp r2 = (ep, r3)) (hs : numSafe r3 T) (hr2 : r2 = []) :
    T.takeWhile isDigitC = [] := by
  subst hr2
  have h0 : pExp ([] : List Char) = ([], []) := rfl
  rw [h0] at hexp
  have hr3 : r3 = [] := by injection hexp with _ h2; exact h2.symm
  subst hr3
  exact numSafe_digits [] T rfl hs

theorem pFrac_not_dot (c : Char) (r : List Char) (hc : c ≠ '.') :
    pFrac (c :: r) = ([], c :: r) := by
  simp only [pFrac]
  rw [if_neg hc]

theorem pExp_not_eE (c : Char) (r : List Char) (hce : c ≠ 'e') (hcE : c ≠ 'E') :
    pExp (c :: r) = ([], c :: r) := by
  cases r with
  | nil => simp only [pExp]
  | cons s rr =>
    have hf : (decide (c = 'e') || decide (c = 'E')) = false := by
      simp [hce, hcE]
    simp only [pExp, hf, Bool.false_eq_true, if_false]

theorem pFrac_append (r1 fp r2 ep r3 T : List Char)
    (h : pFrac r1 = (fp, r2)) (hexp : pExp r2 = (ep, r3)) (hs : numSafe r3 T) :
    pFrac (r1 ++ T) = (fp, r2 ++ T) := by
  cases r1 with
  | nil =>
    have h0 : pFrac ([] : List Char) = ([], []) := rfl
    rw [h0] at h
    obtain ⟨rfl, rfl⟩ : fp = [] ∧ r2 = [] := by
      injection h with h1 h2; exact ⟨h1.symm, h2.symm⟩
    have hr3 : r3 = [] := by
      have h1 : pExp ([] : List Char) = ([], []) := rfl
      rw [h1] at hexp
      injection hexp with ha hb
      exact hb.symm
    subst hr3
    show pFrac T = ([], [] ++ T)
    rw [List.nil_append]
    rcases hs with rfl | ⟨c, ts, rfl, hc⟩
    · rfl
    · exact pFrac_not_dot c ts (numExt_elim c hc).2.1
  | cons c r =>
    by_cases hc : c = '.'
    · subst hc
      have hdef : pFrac ('.' :: r) =
          (if r.takeWhile isDigitC = [] then (([] : List Char), '.' :: r)
           else ('.' :: r.takeWhile isDigitC, r.dropWhile isDigitC)) := rfl
      have hdefT : pFrac ('.' :: (r ++ T)) =
          (if (r ++ T).takeWhile isDigitC = [] then
             (([] : List Char), '.' :: (r ++ T))
           else ('.' :: (r ++ T).takeWhile isDigitC, (r ++ T).dropWhile isDigitC)) :=
        rfl
      rw [show ('.' :: r) ++ T = '.' :: (r ++ T) from rfl, hdefT]
      rw [hdef] at h
      by_cases hds : r.takeWhile isDigitC = []
      · rw [if_pos hds] at h
        obtain ⟨rfl, rfl⟩ : fp = [] ∧ r2 = '.' :: r := by
          injection h with h1 h2; exact ⟨h1.symm, h2.symm⟩
        exfalso
        have hr3 : r3 = '.' :: r := by
          rw [pExp_not_eE '.' r (by decide) (by decide)] at hexp
          injection hexp with ha hb
          exact hb.symm
        subst hr3
        have hfalse : numExt '.' = false := hs
        exact absurd hfalse (by decide)
      · rw [if_neg hds] at h
        obtain ⟨rfl, rfl⟩ : fp = '.' :: r.takeWhile isDigitC ∧
            r2 = r.dropWhile isDigitC := by
          injection h with h1 h2; exact ⟨h1.symm, h2.symm⟩
        obtain ⟨h1, h2⟩ := dropRun_append r T
          (fun hr0 => numSafe_exp_digits (r.dropWhile isDigitC) ep r3 T hexp hs hr0)
        rw [h1, if_neg hds, h2]
    · have hnd : pFrac (c :: r) = ([], c :: r) := pFrac_not_dot c r hc
      rw [hnd] at h
      obtain ⟨rfl, rfl⟩ : fp = [] ∧ r2 = c :: r := by
        injection h with h1 h2; exact ⟨h1.symm, h2.symm⟩
      rw [show (c :: r) ++ T = c :: (r ++ T) from rfl, pFrac_not_dot c (r ++ T) hc]

theorem numSafe_fracexp_digits (r1 fp r2 ep r3 T : List Char)
    (hfrac : pFrac r1 = (fp, r2)) (hexp : pExp r2 = (ep, r3)) (hs : numSafe r3 T)
    (hr1 : r1 = []) : T.takeWhile isDigitC = [] := by
  subst hr1
  have h0 : pFrac ([] : List Char) = ([], []) := rfl
  rw [h0] at hfrac
  have hr2 : r2 = [] := by injection hfrac with _ h2; exact h2.symm
  exact numSafe_exp_digits r2 ep r3 T hexp hs hr2

theorem pIntPart_append (cs ip r1 fp r2 ep r3 T : List Char)
    (h : pIntPart cs = .ok (ip, r1)) (hfrac : pFrac r1 = (fp, r2))
    (hexp : pExp r2 = (ep, r3)) (hs : numSafe r3 T) :
    pIntPart (cs ++ T) = .ok (ip, r1 ++ T) := by
  cases cs with
  | nil => exact Except.noConfusion h
  | cons c r =>
    by_cases hc0 : c = '0'
    · subst hc0
      have h0 : pIntPart ('0' :: r) = .ok (['0'], r) := rfl
      rw [h0] at h
      obtain ⟨rfl, rfl⟩ : ip = ['0'] ∧ r1 = r := by
        injection h with h1; injection h1 with ha hb; exact ⟨ha.symm, hb.symm⟩
      rfl
    · by_cases hcd : isDigitC c = true
      · rw [show (c :: r) ++ T = c :: (r ++ T) from rfl]
        simp only [pIntPart] at h ⊢
        rw [if_neg hc0, if_pos hcd] at h ⊢
        obtain ⟨rfl, rfl⟩ : ip = c :: r.takeWhile isDigitC ∧
            r1 = r.dropWhile isDigitC := by
          injection h with h1; injection h1 with ha hb; exact ⟨ha.symm, hb.symm⟩
        obtain ⟨h1, h2⟩ := dropRun_append r T (fun h0 =>
          numSafe_fracexp_digits (r.dropWhile isDigitC) fp r2 ep r3 T hfrac hexp hs h0)
        rw [h1, h2]
      · exfalso
        simp only [pIntPart] at h
        rw [if_neg hc0, if_neg hcd] at h
        exact Except.noConfusion h

theorem pNumCore_append (cs lex r3 T : List Char)
    (h : pNumCore cs = .ok (lex, r3)) (hs : numSafe r3 T) :
    pNumCore (cs ++ T) = .ok (lex, r3 ++ T) := by
  cases hip : pIntPart cs with
  | error e =>
    rw [pNumCore, hip] at h
    exact Except.noConfusion h
  | ok p =>
    obtain ⟨ip, r1⟩ := p
    cases hfr : pFrac r1 with
    | mk fp r2 =>
      cases hex : pExp r2 with
      | mk ep r3x =>
        simp only [pNumCore, hip, hfr, hex] at h
        have hlex : lex = ip ++ fp ++ ep := by
          injection h with h1; injection h1 with ha hb; exact ha.symm
        have hr3 : r3 = r3x := by
          injection h with h1; injection h1 with ha hb; exact hb.symm
        subst hlex
        subst hr3
        have hipT := pIntPart_append cs ip r1 fp r2 ep r3 T hip hfr hex hs
        have hfrT := pFrac_append r1 fp r2 ep r3 T hfr hex hs
        have hexT := pExp_append r2 ep r3 T hex hs
        simp only [pNumCore, hipT, hfrT, hexT]

theorem pNumber_append (cs lex r3 T : List Char)
    (h : pNumber cs = .ok (lex, r3)) (hs : numSafe r3 T) :
    pNumber (cs ++ T) = .ok (lex, r3 ++ T) := by
  cases cs with
  | nil =>
    have h0 : pNumber ([] : List Char) = .error () := rfl
    rw [h0] at h
    exact Except.noConfusion h
  | cons c r =>
    by_cases hc : c = '-'
    · subst hc
      have hred : ∀ w, pNumber ('-' :: w) =
          (match pNumCore w with
           | .ok (lx, rr) => .ok ('-' :: lx, rr)
           | .error e => .error e) := fun w => rfl
      cases hcore : pNumCore r with
      | error e =>
        simp only [hred, hcore] at h
        exact Except.noConfusion h
      | ok p =>
        obtain ⟨lx, r3x⟩ := p
        simp only [hred, hcore] at h
        have hlex : lex = '-' :: lx := by
          injection h with h1; injection h1 with ha hb; exact ha.symm
        have hr3 : r3 = r3x := by
          injection h with h1; injection h1 with ha hb; exact hb.symm
        subst hlex
        subst hr3
        have hcT := pNumCore_append r lx r3 T hcore hs
        rw [show ('-' :: r) ++ T = '-' :: (r ++ T) from rfl]
        simp only [hred, hcT]
    · have hred2 : ∀ w, pNumber (c :: w) = pNumCore (c :: w) := by
        intro w
        simp only [pNumber]
        rw [if_neg hc]
      rw [hred2 r] at h
      rw [show (c :: r) ++ T = c :: (r ++ T) from rfl, hred2 (r ++ T)]
      exact pNumCore_append (c :: r) lex r3 T h hs

theorem pEsc_append (cs : List Char) (e : Char) (r2 T : List Char)
    (h : pEsc cs = .ok (e, r2)) : pEsc (cs ++ T) = .ok (e, r2 ++ T) := by
  cases cs with
  | nil => exact Except.noConfusion h
  | cons e0 r =>
    by_cases he : e0 = 'u'
    · subst he
      have hred : ∀ w, pEsc ('u' :: w) =
          (match w with
           | h1 :: h2 :: h3 :: h4 :: r3 =>
             (match hexVal h1, hexVal h2, hexVal h3, hexVal h4 with
              | some a, some b, some c, some d =>
                .ok (Char.ofNat (((a * 16 + b) * 16 + c) * 16 + d), r3)
              | _, _, _, _ => .error ())
           | _ => .error ()) := fun w => rfl
      rw [show ('u' :: r) ++ T = 'u' :: (r ++ T) from rfl]
      rcases r with _ | ⟨h1, _ | ⟨h2, _ | ⟨h3, _ | ⟨h4, r3⟩⟩⟩⟩
      · rw [hred []] at h; exact Except.noConfusion h
      · rw [hred [h1]] at h; exact Except.noConfusion h
      · rw [hred [h1, h2]] at h; exact Except.noConfusion h
      · rw [hred [h1, h2, h3]] at h; exact Except.noConfusion h
      · rcases hv1 : hexVal h1 with _ | a
        · simp [hred, hv1] at h
        rcases hv2 : hexVal h2 with _ | b
        · simp [hred, hv1, hv2] at h
        rcases hv3 : hexVal h3 with _ | c
        · simp [hred, hv1, hv2, hv3] at h
        rcases hv4 : hexVal h4 with _ | d
        · simp [hred, hv1, hv2, hv3, hv4] at h
        simp only [hred, hv1, hv2, hv3, hv4] at h
        have he2 : e = Char.ofNat (((a * 16 + b) * 16 + c) * 16 + d) := by
          injection h with hp; injection hp with ha hb; exact ha.symm
        have hr2 : r2 = r3 := by
          injection h with hp; injection hp with ha hb; exact hb.symm
        subst he2
        subst hr2
        simp only [List.cons_append, hred, hv1, hv2, hv3, hv4]
    · have hred2 : ∀ w, pEsc (e0 :: w) =
          (match escChar e0 with
           | some c => .ok (c, w)
           | none => .error ()) := by
        intro w
        simp only [pEsc]
        rw [if_neg he]
      rw [hred2 r] at h
      rw [show (e0 :: r) ++ T = e0 :: (r ++ T) from rfl, hred2 (r ++ T)]
      cases hec : escChar e0 with
      | none =>
        rw [hec] at h
        exact Except.noConfusion h
      | some c0 =>
        rw [hec] at h
        simp only [] at h ⊢
        have he2 : e = c0 := by
          injection h with hp; injection hp with ha hb; exact ha.symm
        have hr2x : r2 = r := by
          injection h with hp; injection hp with ha hb; exact hb.symm
        rw [he2, hr2x]

theorem pStr_append (n : Nat) : ∀ (cs s r2 T : List Char),
    pStr n cs = .ok (s, r2) → pStr n (cs ++ T) = .ok (s, r2 ++ T) := by
  induction n with
  | zero => intro cs s r2 T h; exact Except.noConfusion h
  | succ n ih =>
    intro cs s r2 T h
    cases cs with
    | nil => exact Except.noConfusion h
    | cons c r =>
      rw [show (c :: r) ++ T = c :: (r ++ T) from rfl]
      by_cases hq : c = '"'
      · subst hq
        have h0 : ∀ w, pStr (n + 1) ('"' :: w) = .ok ([], w) := fun w => rfl
        rw [h0 r] at h
        obtain ⟨rfl, rfl⟩ : s = [] ∧ r2 = r := by
          injection h with hp; injection hp with ha hb; exact ⟨ha.symm, hb.symm⟩
        exact h0 _
      · by_cases hb : c = '\\'
        · subst hb
          have hred : ∀ w, pStr (n + 1) ('\\' :: w) =
              (match pEsc w with
               | .error e => .error e
               | .ok (e, w2) =>
                 match pStr n w2 with
                 | .error e => .error e
                 | .ok (s1, w3) => .ok (e :: s1, w3)) := fun w => rfl
          rw [hred r] at h
          rw [hred (r ++ T)]
          cases hpe : pEsc r with
          | error e =>
            rw [hpe] at h
            exact Except.noConfusion h
          | ok p =>
            obtain ⟨e1, w2⟩ := p
            rw [hpe] at h
            simp only [] at h
            rw [pEsc_append r e1 w2 T hpe]
            simp only []
            cases hps : pStr n w2 with
            | error e =>
              rw [hps] at h
              exact Except.noConfusion h
            | ok q =>
              obtain ⟨s1, w3⟩ := q
              rw [hps] at h
              simp only [] at h
              have hsx : s = e1 :: s1 := by
                injection h with hp2; injection hp2 with ha hb2; exact ha.symm
              have hrx : r2 = w3 := by
                injection h with hp2; injection hp2 with ha hb2; exact hb2.symm
              rw [hsx, hrx, ih w2 s1 w3 T hps]
        · by_cases hctl : c.toNat < 32
          · exfalso
            have hred : pStr (n + 1) (c :: r) = .error () := by
              simp only [pStr]
              rw [if_neg hq, if_neg hb, if_pos hctl]
            rw [hred] at h
            exact Except.noConfusion h
          · have hred : ∀ w, pStr (n + 1) (c :: w) =
                (match pStr n w with
                 | .error e => .error e
                 | .ok (s1, w2) => .ok (c :: s1, w2)) := by
              intro w
              simp only [pStr]
              rw [if_neg hq, if_neg hb, if_neg hctl]
            rw [hred r] at h
            rw [hred (r ++ T)]
            cases hps : pStr n r with
            | error e =>
              rw [hps] at h
              exact Except.noConfusion h
            | ok q =>
              obtain ⟨s1, w2⟩ := q
              rw [hps] at h
              simp only [] at h
              have hsx : s = c :: s1 := by
                injection h with hp2; injection hp2 with ha hb2; exact ha.symm
              have hrx : r2 = w2 := by
                injection h with hp2; injection hp2 with ha hb2; exact hb2.symm
              rw [hsx, hrx, ih r s1 w2 T hps]

theorem pValue_nil (n : Nat) : pValue n ([] : List Char) = .error () := by
  cases n with
  | zero => rfl
  | succ m => rfl

theorem jsonWs_not_numExt (c : Char) (h : isJsonWs c = true) : numExt c = false := by
  simp only [isJsonWs, Bool.or_eq_true, decide_eq_true_eq] at h
  rcases h with ((rfl | rfl) | rfl) | rfl <;> decide

theorem numSafe_of_skipWs (r1 T : List Char) (d : Char) (w : List Char)
    (h : skipWs r1 = d :: w) (hd : numExt d = false) : numSafe r1 T := by
  cases r1 with
  | nil => exact List.noConfusion h
  | cons c r =>
    show numExt c = false
    by_cases hc : isJsonWs c = true
    · exact jsonWs_not_numExt c hc
    · have h2 : c :: r = d :: w := by
        rw [← h]
        show c :: r = skipWs (c :: r)
        unfold skipWs
        rw [List.dropWhile_cons, if_neg hc]
      injection h2 with ha _
      rw [ha]
      exact hd

theorem numSafe_of_pElemsTail (n : Nat) (r1 : List Char) (vs : List Json)
    (r2 T : List Char) (h : pElemsTail n r1 = .ok (vs, r2)) : numSafe r1 T := by
  cases n with
  | zero => exact Except.noConfusion h
  | succ m =>
    cases hsw1 : skipWs r1 with
    | nil =>
      simp only [pElemsTail, hsw1] at h
      exact Except.noConfusion h
    | cons d w =>
      by_cases hd1 : d = ']'
      · exact numSafe_of_skipWs r1 T d w hsw1 (by rw [hd1]; decide)
      · by_cases hd2 : d = ','
        · exact numSafe_of_skipWs r1 T d w hsw1 (by rw [hd2]; decide)
        · exfalso
          simp only [pElemsTail, hsw1] at h
          rw [if_neg hd1, if_neg hd2] at h
          exact Except.noConfusion h

theorem numSafe_of_pMembsTail (n : Nat) (r1 : List Char) (ms : List (String × Json))
    (r2 T : List Char) (h : pMembsTail n r1 = .ok (ms, r2)) : numSafe r1 T := by
  cases n with
  | zero => exact Except.noConfusion h
  | succ m =>
    cases hsw1 : skipWs r1 with
    | nil =>
      simp only [pMembsTail, hsw1] at h
      exact Except.noConfusion h
    | cons d w =>
      by_cases hd1 : d = '}'
      · exact numSafe_of_skipWs r1 T d w hsw1 (by rw [hd1]; decide)
      · by_cases hd2 : d = ','
        · exact numSafe_of_skipWs r1 T d w hsw1 (by rw [hd2]; decide)
        · exfalso
          simp only [pMembsTail, hsw1] at h
          rw [if_neg hd1, if_neg hd2] at h
          exact Except.noConfusion h

theorem pNumber_ok_head (c : Char) (r lex r2 : List Char)
    (h : pNumber (c :: r) = .ok (lex, r2)) : c = '-' ∨ isDigitC c = true := by
  by_cases hc : c = '-'
  · exact Or.inl hc
  · right
    have hred2 : pNumber (c :: r) = pNumCore (c :: r) := by
      simp only [pNumber]
      rw [if_neg hc]
    rw [hred2] at h
    by_cases hc0 : c = '0'
    · rw [hc0]; decide
    · by_cases hcd : isDigitC c = true
      · exact hcd
      · exfalso
        have hip : pIntPart (c :: r) = .error () := by
          simp only [pIntPart]
          rw [if_neg hc0, if_neg hcd]
        rw [pNumCore, hip] at h
        exact Except.noConfusion h

theorem startsWithL_cons_ne_not (p0 : Char) (ps : List Char) (c : Char) (X : List Char)
    (h : p0 ≠ c) : ¬startsWithL (p0 :: ps) (c :: X) = true := by
  rw [startsWithL_cons_ne p0 ps c X h]
  simp

/-- Appending a tail that cannot extend a number munch does not change
any successful parse; the parse consumes the same prefix and the tail
rides along in the rest. -/
theorem parser_append (n : Nat) :
    (∀ cs v r T, pValue n cs = .ok (v, r) → numSafe r T →
       pValue n (cs ++ T) = .ok (v, r ++ T)) ∧
    (∀ cs vs r T, pElems n cs = .ok (vs, r) → numSafe r T →
       pElems n (cs ++ T) = .ok (vs, r ++ T)) ∧
    (∀ cs vs r T, pElemsTail n cs = .ok (vs, r) → numSafe r T →
       pElemsTail n (cs ++ T) = .ok (vs, r ++ T)) ∧
    (∀ cs ms r T, pMembs n cs = .ok (ms, r) → numSafe r T →
       pMembs n (cs ++ T) = .ok (ms, r ++ T)) ∧
    (∀ cs ms r T, pMembsTail n cs = .ok (ms, r) → numSafe r T →
       pMembsTail n (cs ++ T) = .ok (ms, r ++ T)) := by
  induction n with
  | zero =>
    refine ⟨?_, ?_, ?_, ?_, ?_⟩ <;> intro cs x r T h _ <;> exact Except.noConfusion h
  | succ n ih =>
    obtain ⟨ihV, ihE, ihEt, ihM, ihMt⟩ := ih
    refine ⟨?_, ?_, ?_, ?_, ?_⟩
    · -- pValue
      intro cs v r T h hs
      cases cs with
      | nil => exact Except.noConfusion h
      | cons c r0 =>
        rw [show (c :: r0) ++ T = c :: (r0 ++ T) from rfl]
        by_cases hq : c = '"'
        · subst hq
          have hred : ∀ w, pValue (n + 1) ('"' :: w) =
              (match pStr n w with
               | .error e => .error e
               | .ok (s, r2) => .ok (.str (String.mk s), r2)) := fun w => rfl
          rw [hred r0] at h
          rw [hred (r0 ++ T)]
          cases hps : pStr n r0 with
          | error e =>
            rw [hps] at h
            exact Except.noConfusion h
          | ok p =>
            obtain ⟨s, r2⟩ := p
            rw [hps] at h
            simp only [] at h
            have hv : v = .str (String.mk s) := by
              injection h with hp; injection hp with ha hb; exact ha.symm
            have hr : r = r2 := by
              injection h with hp; injection hp with ha hb; exact hb.symm
            rw [pStr_append n r0 s r2 T hps]
            simp only []
            rw [hv, hr]
        · by_cases hob : c = '{'
          · subst hob
            have hred : ∀ w, pValue (n + 1) ('{' :: w) =
                (match pMembs n w with
                 | .error e => .error e
                 | .ok (ms, r2) => .ok (.obj (dedupPairs ms), r2)) := fun w => rfl
            rw [hred r0] at h
            rw [hred (r0 ++ T)]
            cases hpm : pMembs n r0 with
            | error e =>
              rw [hpm] at h
              exact Except.noConfusion h
            | ok p =>
              obtain ⟨ms, r2⟩ := p
              rw [hpm] at h
              simp only [] at h
              have hv : v = .obj (dedupPairs ms) := by
                injection h with hp; injection hp with ha hb; exact ha.symm
              have hr : r = r2 := by
                injection h with hp; injection hp with ha hb; exact hb.symm
              rw [ihM r0 ms r2 T hpm (hr ▸ hs)]
              simp only []
              rw [hv, hr]
          · by_cases har : c = '['
            · subst har
              have hred : ∀ w, pValue (n + 1) ('[' :: w) =
                  (match pElems n w with
                   | .error e => .error e
                   | .ok (es, r2) => .ok (.arr es, r2)) := fun w => rfl
              rw [hred r0] at h
              rw [hred (r0 ++ T)]
              cases hpe : pElems n r0 with
              | error e =>
                rw [hpe] at h
                exact Except.noConfusion h
              | ok p =>
                obtain ⟨es, r2⟩ := p
                rw [hpe] at h
                simp only [] at h
                have hv : v = .arr es := by
                  injection h with hp; injection hp with ha hb; exact ha.symm
                have hr : r = r2 := by
                  injection h with hp; injection hp with ha hb; exact hb.symm
                rw [ihE r0 es r2 T hpe (hr ▸ hs)]
                simp only []
                rw [hv, hr]
            · by_cases hnull : startsWithL ['n', 'u', 'l', 'l'] (c :: r0) = true
              · obtain ⟨hc, _⟩ := startsWithL_cons_true 'n' ['u', 'l', 'l'] c r0 hnull
                subst hc
                have hred : pValue (n + 1) ('n' :: r0) =
                    .ok (.null, ('n' :: r0).drop 4) := by
                  simp only [pValue]
                  rw [if_neg hq, if_neg hob, if_neg har, if_pos hnull]
                rw [hred] at h
                have hv : v = .null := by
                  injection h with hp; injection hp with ha hb; exact ha.symm
                have hr : r = ('n' :: r0).drop 4 := by
                  injection h with hp; injection hp with ha hb; exact hb.symm
                have hlitT : startsWithL ['n', 'u', 'l', 'l'] ('n' :: (r0 ++ T)) = true :=
                  startsWithL_append ['n', 'u', 'l', 'l'] ('n' :: r0) T hnull
                have hred2 : pValue (n + 1) ('n' :: (r0 ++ T)) =
                    .ok (.null, ('n' :: (r0 ++ T)).drop 4) := by
                  simp only [pValue]
                  rw [if_neg hq, if_neg hob, if_neg har, if_pos hlitT]
                rw [hred2, hv, hr]
                have hlen : 4 ≤ ('n' :: r0).length :=
                  startsWithL_length ['n', 'u', 'l', 'l'] ('n' :: r0) hnull
                rw [show ('n' :: (r0 ++ T)) = ('n' :: r0) ++ T from rfl,
                  List.drop_append_of_le_length hlen]
              · by_cases htrue : startsWithL ['t', 'r', 'u', 'e'] (c :: r0) = true
                · obtain ⟨hc, _⟩ := startsWithL_cons_true 't' ['r', 'u', 'e'] c r0 htrue
                  subst hc
                  have hred : pValue (n + 1) ('t' :: r0) =
                      .ok (.bool true, ('t' :: r0).drop 4) := by
                    simp only [pValue]
                    rw [if_neg hq, if_neg hob, if_neg har, if_neg hnull, if_pos htrue]
                  rw [hred] at h
                  have hv : v = .bool true := by
                    injection h with hp; injection hp with ha hb; exact ha.symm
                  have hr : r = ('t' :: r0).drop 4 := by
                    injection h with hp; injection hp with ha hb; exact hb.symm
                  have hlitT : startsWithL ['t', 'r', 'u', 'e'] ('t' :: (r0 ++ T)) = true :=
                    startsWithL_append ['t', 'r', 'u', 'e'] ('t' :: r0) T htrue
                  have hred2 : pValue (n + 1) ('t' :: (r0 ++ T)) =
                      .ok (.bool true, ('t' :: (r0 ++ T)).drop 4) := by
                    simp only [pValue]
                    rw [if_neg hq, if_neg hob, if_neg har,
                      if_neg (startsWithL_cons_ne_not 'n' ['u', 'l', 'l'] 't' ((r0 ++ T)) (by decide)),
                      if_pos hlitT]
                  rw [hred2, hv, hr]
                  have hlen : 4 ≤ ('t' :: r0).length :=
                    startsWithL_length ['t', 'r', 'u', 'e'] ('t' :: r0) htrue
                  rw [show ('t' :: (r0 ++ T)) = ('t' :: r0) ++ T from rfl,
                    List.drop_append_of_le_length hlen]
                · by_cases hfal : startsWithL ['f', 'a', 'l', 's', 'e'] (c :: r0) = true
                  · obtain ⟨hc, _⟩ :=
                      startsWithL_cons_true 'f' ['a', 'l', 's', 'e'] c r0 hfal
                    subst hc
                    have hred : pValue (n + 1) ('f' :: r0) =
                        .ok (.bool false, ('f' :: r0).drop 5) := by
                      simp only [pValue]
                      rw [if_neg hq, if_neg hob, if_neg har, if_neg hnull,
                        if_neg htrue, if_pos hfal]
                    rw [hred] at h
                    have hv : v = .bool false := by
                      injection h with hp; injection hp with ha hb; exact ha.symm
                    have hr : r = ('f' :: r0).drop 5 := by
                      injection h with hp; injection hp with ha hb; exact hb.symm
                    have hlitT : startsWithL ['f', 'a', 'l', 's', 'e']
                        ('f' :: (r0 ++ T)) = true :=
                      startsWithL_append ['f', 'a', 'l', 's', 'e'] ('f' :: r0) T hfal
                    have hred2 : pValue (n + 1) ('f' :: (r0 ++ T)) =
                        .ok (.bool false, ('f' :: (r0 ++ T)).drop 5) := by
                      simp only [pValue]
                      rw [if_neg hq, if_neg hob, if_neg har,
                        if_neg (startsWithL_cons_ne_not 'n' ['u', 'l', 'l'] 'f' ((r0 ++ T)) (by decide)),
                        if_neg (startsWithL_cons_ne_not 't' ['r', 'u', 'e'] 'f' ((r0 ++ T)) (by decide)),
                        if_pos hlitT]
                    rw [hred2, hv, hr]
                    have hlen : 5 ≤ ('f' :: r0).length :=
                      startsWithL_length ['f', 'a', 'l', 's', 'e'] ('f' :: r0) hfal
                    rw [show ('f' :: (r0 ++ T)) = ('f' :: r0) ++ T from rfl,
                      List.drop_append_of_le_length hlen]
                  · by_cases hnan : startsWithL ['N', 'a', 'N'] (c :: r0) = true
                    · obtain ⟨hc, _⟩ := startsWithL_cons_true 'N' ['a', 'N'] c r0 hnan
                      subst hc
                      have hred : pValue (n + 1) ('N' :: r0) =
                          .ok (.num "NaN", ('N' :: r0).drop 3) := by
                        simp only [pValue]
                        rw [if_neg hq, if_neg hob, if_neg har, if_neg hnull,
                          if_neg htrue, if_neg hfal, if_pos hnan]
                      rw [hred] at h
                      have hv : v = .num "NaN" := by
                        injection h with hp; injection hp with ha hb; exact ha.symm
                      have hr : r = ('N' :: r0).drop 3 := by
                        injection h with hp; injection hp with ha hb; exact hb.symm
                      have hlitT : startsWithL ['N', 'a', 'N'] ('N' :: (r0 ++ T)) = true :=
                        startsWithL_append ['N', 'a', 'N'] ('N' :: r0) T hnan
                      have hred2 : pValue (n + 1) ('N' :: (r0 ++ T)) =
                          .ok (.num "NaN", ('N' :: (r0 ++ T)).drop 3) := by
                        simp only [pValue]
                        rw [if_neg hq, if_neg hob, if_neg har,
                          if_neg (startsWithL_cons_ne_not 'n' ['u', 'l', 'l'] 'N' ((r0 ++ T)) (by decide)),
                          if_neg (startsWithL_cons_ne_not 't' ['r', 'u', 'e'] 'N' ((r0 ++ T)) (by decide)),
                          if_neg (startsWithL_cons_ne_not 'f' ['a', 'l', 's', 'e'] 'N' ((r0 ++ T)) (by decide)),
                          if_pos hlitT]
                      rw [hred2, hv, hr]
                      have hlen : 3 ≤ ('N' :: r0).length :=
                        startsWithL_length ['N', 'a', 'N'] ('N' :: r0) hnan
                      rw [show ('N' :: (r0 ++ T)) = ('N' :: r0) ++ T from rfl,
                        List.drop_append_of_le_length hlen]
                    · by_cases hinf : startsWithL
                          ['I', 'n', 'f', 'i', 'n', 'i', 't', 'y'] (c :: r0) = true
                      · obtain ⟨hc, _⟩ := startsWithL_cons_true 'I'
                          ['n', 'f', 'i', 'n', 'i', 't', 'y'] c r0 hinf
                        subst hc
                        have hred : pValue (n + 1) ('I' :: r0) =
                            .ok (.num "Infinity", ('I' :: r0).drop 8) := by
                          simp only [pValue]
                          rw [if_neg hq, if_neg hob, if_neg har, if_neg hnull,
                            if_neg htrue, if_neg hfal, if_neg hnan, if_pos hinf]
                        rw [hred] at h
                        have hv : v = .num "Infinity" := by
                          injection h with hp; injection hp with ha hb; exact ha.symm
                        have hr : r = ('I' :: r0).drop 8 := by
                          injection h with hp; injection hp with ha hb; exact hb.symm
                        have hlitT : startsWithL ['I', 'n', 'f', 'i', 'n', 'i', 't', 'y']
                            ('I' :: (r0 ++ T)) = true :=
                          startsWithL_append ['I', 'n', 'f', 'i', 'n', 'i', 't', 'y']
                            ('I' :: r0) T hinf
                        have hred2 : pValue (n + 1) ('I' :: (r0 ++ T)) =
                            .ok (.num "Infinity", ('I' :: (r0 ++ T)).drop 8) := by
                          simp only [pValue]
                          rw [if_neg hq, if_neg hob, if_neg har,
                            if_neg (startsWithL_cons_ne_not 'n' ['u', 'l', 'l'] 'I' ((r0 ++ T)) (by decide)),
                            if_neg (startsWithL_cons_ne_not 't' ['r', 'u', 'e'] 'I' ((r0 ++ T)) (by decide)),
                            if_neg (startsWithL_cons_ne_not 'f' ['a', 'l', 's', 'e'] 'I' ((r0 ++ T)) (by decide)),
                            if_neg (startsWithL_cons_ne_not 'N' ['a', 'N'] 'I' ((r0 ++ T)) (by decide)),
                            if_pos hlitT]
                        rw [hred2, hv, hr]
                        have hlen : 8 ≤ ('I' :: r0).length :=
                          startsWithL_length ['I', 'n', 'f', 'i', 'n', 'i', 't', 'y']
                            ('I' :: r0) hinf
                        rw [show ('I' :: (r0 ++ T)) = ('I' :: r0) ++ T from rfl,
                          List.drop_append_of_le_length hlen]
                      · have hred : pValue (n + 1) (c :: r0) =
                            (match pNumber (c :: r0) with
                             | .ok (lex, r2) => .ok (.num (String.mk lex), r2)
                             | .error _ =>
                               if startsWithL ['-', 'I', 'n', 'f', 'i', 'n', 'i', 't', 'y']
                                   (c :: r0) = true then
                                 .ok (.num "-Infinity", (c :: r0).drop 9)
                               else .error ()) := by
                          simp only [pValue]
                          rw [if_neg hq, if_neg hob, if_neg har, if_neg hnull,
                            if_neg htrue, if_neg hfal, if_neg hnan, if_neg hinf]
                        rw [hred] at h
                        cases hnum : pNumber (c :: r0) with
                        | ok p =>
                          obtain ⟨lex, r2⟩ := p
                          rw [hnum] at h
                          simp only [] at h
                          have hv : v = .num (String.mk lex) := by
                            injection h with hp; injection hp with ha hb; exact ha.symm
                          have hr : r = r2 := by
                            injection h with hp; injection hp with ha hb; exact hb.symm
                          have hne : c ≠ 'n' ∧ c ≠ 't' ∧ c ≠ 'f' ∧ c ≠ 'N' ∧ c ≠ 'I' := by
                            rcases pNumber_ok_head c r0 lex r2 hnum with rfl | hd
                            · exact ⟨by decide, by decide, by decide, by decide, by decide⟩
                            · refine ⟨?_, ?_, ?_, ?_, ?_⟩ <;> intro hceq <;>
                                rw [hceq] at hd <;> exact absurd hd (by decide)
                          have hnumT : pNumber ((c :: r0) ++ T) = .ok (lex, r2 ++ T) :=
                            pNumber_append (c :: r0) lex r2 T hnum (hr ▸ hs)
                          have hn1 : ¬startsWithL ['n', 'u', 'l', 'l']
                              (c :: (r0 ++ T)) = true := by
                            rw [startsWithL_cons_ne 'n' ['u', 'l', 'l'] c (r0 ++ T)
                              (Ne.symm hne.1)]
                            decide
                          have hn2 : ¬startsWithL ['t', 'r', 'u', 'e']
                              (c :: (r0 ++ T)) = true := by
                            rw [startsWithL_cons_ne 't' ['r', 'u', 'e'] c (r0 ++ T)
                              (Ne.symm hne.2.1)]
                            decide
                          have hn3 : ¬startsWithL ['f', 'a', 'l', 's', 'e']
                              (c :: (r0 ++ T)) = true := by
                            rw [startsWithL_cons_ne 'f' ['a', 'l', 's', 'e'] c (r0 ++ T)
                              (Ne.symm hne.2.2.1)]
                            decide
                          have hn4 : ¬startsWithL ['N', 'a', 'N']
                              (c :: (r0 ++ T)) = true := by
                            rw [startsWithL_cons_ne 'N' ['a', 'N'] c (r0 ++ T)
                              (Ne.symm hne.2.2.2.1)]
                            decide
                          have hn5 : ¬startsWithL ['I', 'n', 'f', 'i', 'n', 'i', 't', 'y']
                              (c :: (r0 ++ T)) = true := by
                            rw [startsWithL_cons_ne 'I' ['n', 'f', 'i', 'n', 'i', 't', 'y']
                              c (r0 ++ T) (Ne.symm hne.2.2.2.2)]
                            decide
                          have hred2 : pValue (n + 1) (c :: (r0 ++ T)) =
                              (match pNumber (c :: (r0 ++ T)) with
                               | .ok (lex, r2) => .ok (.num (String.mk lex), r2)
                               | .error _ =>
                                 if startsWithL
                                     ['-', 'I', 'n', 'f', 'i', 'n', 'i', 't', 'y']
                                     (c :: (r0 ++ T)) = true then
                                   .ok (.num "-Infinity", (c :: (r0 ++ T)).drop 9)
                                 else .error ()) := by
                            simp only [pValue]
                            rw [if_neg hq, if_neg hob, if_neg har, if_neg hn1,
                              if_neg hn2, if_neg hn3, if_neg hn4, if_neg hn5]
                          rw [hred2, show c :: (r0 ++ T) = (c :: r0) ++ T from rfl, hnumT]
                          simp only []
                          rw [hv, hr]
                        | error e =>
                          rw [hnum] at h
                          simp only [] at h
                          by_cases hminf : startsWithL
                              ['-', 'I', 'n', 'f', 'i', 'n', 'i', 't', 'y']
                              (c :: r0) = true
                          · rw [if_pos hminf] at h
                            have hv : v = .num "-Infinity" := by
                              injection h with hp; injection hp with ha hb; exact ha.symm
                            have hr : r = (c :: r0).drop 9 := by
                              injection h with hp; injection hp with ha hb; exact hb.symm
                            obtain ⟨hc, hs9⟩ := startsWithL_cons_true '-'
                              ['I', 'n', 'f', 'i', 'n', 'i', 't', 'y'] c r0 hminf
                            subst hc
                            cases r0 with
                            | nil => exact absurd hs9 (by decide)
                            | cons d r1 =>
                              obtain ⟨hd, _⟩ := startsWithL_cons_true 'I'
                                ['n', 'f', 'i', 'n', 'i', 't', 'y'] d r1 hs9
                              subst hd
                              rw [show ('I' :: r1) ++ T = 'I' :: (r1 ++ T) from rfl]
                              have hnumT : pNumber ('-' :: 'I' :: (r1 ++ T)) =
                                  .error () := rfl
                              have hminfT : startsWithL
                                  ['-', 'I', 'n', 'f', 'i', 'n', 'i', 't', 'y']
                                  ('-' :: 'I' :: (r1 ++ T)) = true :=
                                startsWithL_append
                                  ['-', 'I', 'n', 'f', 'i', 'n', 'i', 't', 'y']
                                  ('-' :: 'I' :: r1) T hminf
                              have hred2 : pValue (n + 1) ('-' :: 'I' :: (r1 ++ T)) =
                                  (match pNumber ('-' :: 'I' :: (r1 ++ T)) with
                                   | .ok (lex, r2) => .ok (.num (String.mk lex), r2)
                                   | .error _ =>
                                     if startsWithL
                                         ['-', 'I', 'n', 'f', 'i', 'n', 'i', 't', 'y']
                                         ('-' :: 'I' :: (r1 ++ T)) = true then
                                       .ok (.num "-Infinity",
                                         ('-' :: 'I' :: (r1 ++ T)).drop 9)
                                     else .error ()) := by
                                simp only [pValue]
                                rw [if_neg (show ¬('-' : Char) = '"' by decide),
                                  if_neg (show ¬('-' : Char) = '{' by decide),
                                  if_neg (show ¬('-' : Char) = '[' by decide),
                                  if_neg (startsWithL_cons_ne_not 'n' ['u', 'l', 'l'] '-' ('I' :: (r1 ++ T)) (by decide)),
                                  if_neg (startsWithL_cons_ne_not 't' ['r', 'u', 'e'] '-' ('I' :: (r1 ++ T)) (by decide)),
                                  if_neg (startsWithL_cons_ne_not 'f' ['a', 'l', 's', 'e'] '-' ('I' :: (r1 ++ T)) (by decide)),
                                  if_neg (startsWithL_cons_ne_not 'N' ['a', 'N'] '-' ('I' :: (r1 ++ T)) (by decide)),
                                  if_neg (startsWithL_cons_ne_not 'I' ['n', 'f', 'i', 'n', 'i', 't', 'y'] '-' ('I' :: (r1 ++ T)) (by decide))]
                              rw [hred2, hnumT]
                              simp only []
                              rw [if_pos hminfT, hv, hr]
                              have hlen : 9 ≤ ('-' :: 'I' :: r1).length :=
                                startsWithL_length
                                  ['-', 'I', 'n', 'f', 'i', 'n', 'i', 't', 'y']
                                  ('-' :: 'I' :: r1) hminf
                              rw [show '-' :: 'I' :: (r1 ++ T) =
                                  ('-' :: 'I' :: r1) ++ T from rfl,
                                List.drop_append_of_le_length hlen]
                          · rw [if_neg hminf] at h
                            exact Except.noConfusion h
    · -- pElems
      intro cs vs r T h hs
      cases hsw : skipWs cs with
      | nil =>
        simp only [pElems, hsw] at h
        exact Except.noConfusion h
      | cons c r0 =>
        have hswT := skipWs_append cs c r0 hsw T
        simp only [pElems, hsw] at h
        simp only [pElems, hswT]
        by_cases hcb : c = ']'
        · rw [if_pos hcb] at h
          have hv : vs = [] := by
            injection h with hp; injection hp with ha hb; exact ha.symm
          have hr : r = r0 := by
            injection h with hp; injection hp with ha hb; exact hb.symm
          rw [if_pos hcb, hv, hr]
        · rw [if_neg hcb] at h
          rw [if_neg hcb]
          cases hpv : pValue n (c :: r0) with
          | error e =>
            rw [hpv] at h
            exact Except.noConfusion h
          | ok p =>
            obtain ⟨v, r1⟩ := p
            rw [hpv] at h
            simp only [] at h
            cases hpt : pElemsTail n r1 with
            | error e =>
              rw [hpt] at h
              exact Except.noConfusion h
            | ok q =>
              obtain ⟨vs1, r2⟩ := q
              rw [hpt] at h
              simp only [] at h
              have hvs : vs = v :: vs1 := by
                injection h with hp; injection hp with ha hb; exact ha.symm
              have hr : r = r2 := by
                injection h with hp; injection hp with ha hb; exact hb.symm
              have hsafe1 : numSafe r1 T := numSafe_of_pElemsTail n r1 vs1 r2 T hpt
              have hpvT := ihV (c :: r0) v r1 T hpv hsafe1
              rw [show (c :: r0) ++ T = c :: (r0 ++ T) from rfl] at hpvT
              rw [hpvT]
              simp only []
              rw [ihEt r1 vs1 r2 T hpt (hr ▸ hs)]
              simp only []
              rw [hvs, hr]
    · -- pElemsTail
      intro cs vs r T h hs
      cases hsw : skipWs cs with
      | nil =>
        simp only [pElemsTail, hsw] at h
        exact Except.noConfusion h
      | cons c r0 =>
        have hswT := skipWs_append cs c r0 hsw T
        simp only [pElemsTail, hsw] at h
        simp only [pElemsTail, hswT]
        by_cases hcb : c = ']'
        · rw [if_pos hcb] at h
          have hv : vs = [] := by
            injection h with hp; injection hp with ha hb; exact ha.symm
          have hr : r = r0 := by
            injection h with hp; injection hp with ha hb; exact hb.symm
          rw [if_pos hcb, hv, hr]
        · rw [if_neg hcb] at h
          rw [if_neg hcb]
          by_cases hcm : c = ','
          · rw [if_pos hcm] at h
            rw [if_pos hcm]
            cases hsw0 : skipWs r0 with
            | nil =>
              rw [hsw0, pValue_nil n] at h
              exact Except.noConfusion h
            | cons d w =>
              have hsw0T := skipWs_append r0 d w hsw0 T
              rw [hsw0] at h
              rw [hsw0T]
              cases hpv : pValue n (d :: w) with
              | error e =>
                rw [hpv] at h
                exact Except.noConfusion h
              | ok p =>
                obtain ⟨v, r1⟩ := p
                rw [hpv] at h
                simp only [] at h
                cases hpt : pElemsTail n r1 with
                | error e =>
                  rw [hpt] at h
                  exact Except.noConfusion h
                | ok q =>
                  obtain ⟨vs1, r2⟩ := q
                  rw [hpt] at h
                  simp only [] at h
                  have hvs : vs = v :: vs1 := by
                    injection h with hp; injection hp with ha hb; exact ha.symm
                  have hr : r = r2 := by
                    injection h with hp; injection hp with ha hb; exact hb.symm
                  have hsafe1 : numSafe r1 T := numSafe_of_pElemsTail n r1 vs1 r2 T hpt
                  have hpvT := ihV (d :: w) v r1 T hpv hsafe1
                  rw [show (d :: w) ++ T = d :: (w ++ T) from rfl] at hpvT
                  rw [hpvT]
                  simp only []
                  rw [ihEt r1 vs1 r2 T hpt (hr ▸ hs)]
                  simp only []
                  rw [hvs, hr]
          · rw [if_neg hcm] at h
            exact Except.noConfusion h
    · -- pMembs
      intro cs ms r T h hs
      cases hsw : skipWs cs with
      | nil =>
        simp only [pMembs, hsw] at h
        exact Except.noConfusion h
      | cons c r0 =>
        have hswT := skipWs_append cs c r0 hsw T
        simp only [pMembs, hsw] at h
        simp only [pMembs, hswT]
        by_cases hcb : c = '}'
        · rw [if_pos hcb] at h
          have hv : ms = [] := by
            injection h with hp; injection hp with ha hb; exact ha.symm
          have hr : r = r0 := by
            injection h with hp; injection hp with ha hb; exact hb.symm
          rw [if_pos hcb, hv, hr]
        · rw [if_neg hcb] at h
          rw [if_neg hcb]
          by_cases hcq : c = '"'
          · rw [if_pos hcq] at h
            rw [if_pos hcq]
            cases hpk : pStr n r0 with
            | error e =>
              rw [hpk] at h
              exact Except.noConfusion h
            | ok p =>
              obtain ⟨k, r1⟩ := p
              rw [hpk] at h
              simp only [] at h
              rw [pStr_append n r0 k r1 T hpk]
              simp only []
              cases hsw1 : skipWs r1 with
              | nil =>
                rw [hsw1] at h
                exact Except.noConfusion h
              | cons d r2 =>
                have hsw1T := skipWs_append r1 d r2 hsw1 T
                rw [hsw1] at h
                simp only [] at h
                rw [hsw1T]
                simp only []
                by_cases hd : d = ':'
                · rw [if_pos hd] at h
                  rw [if_pos hd]
                  cases hsw2 : skipWs r2 with
                  | nil =>
                    rw [hsw2, pValue_nil n] at h
                    exact Except.noConfusion h
                  | cons e0 w =>
                    have hsw2T := skipWs_append r2 e0 w hsw2 T
                    rw [hsw2] at h
                    rw [hsw2T]
                    cases hpv : pValue n (e0 :: w) with
                    | error e =>
                      rw [hpv] at h
                      exact Except.noConfusion h
                    | ok pv =>
                      obtain ⟨v, r3⟩ := pv
                      rw [hpv] at h
                      simp only [] at h
                      cases hpt : pMembsTail n r3 with
                      | error e =>
                        rw [hpt] at h
                        exact Except.noConfusion h
                      | ok q =>
                        obtain ⟨ms1, r4⟩ := q
                        rw [hpt] at h
                        simp only [] at h
                        have hms : ms = (String.mk k, v) :: ms1 := by
                          injection h with hp; injection hp with ha hb; exact ha.symm
                        have hr : r = r4 := by
                          injection h with hp; injection hp with ha hb; exact hb.symm
                        have hsafe3 : numSafe r3 T :=
                          numSafe_of_pMembsTail n r3 ms1 r4 T hpt
                        have hpvT := ihV (e0 :: w) v r3 T hpv hsafe3
                        rw [show (e0 :: w) ++ T = e0 :: (w ++ T) from rfl] at hpvT
                        rw [hpvT]
                        simp only []
                        rw [ihMt r3 ms1 r4 T hpt (hr ▸ hs)]
                        simp only []
                        rw [hms, hr]
                · rw [if_neg hd] at h
                  exact Except.noConfusion h
          · rw [if_neg hcq] at h
            exact Except.noConfusion h
    · -- pMembsTail
      intro cs ms r T h hs
      cases hsw : skipWs cs with
      | nil =>
        simp only [pMembsTail, hsw] at h
        exact Except.noConfusion h
      | cons c r0 =>
        have hswT := skipWs_append cs c r0 hsw T
        simp only [pMembsTail, hsw] at h
        simp only [pMembsTail, hswT]
        by_cases hcb : c = '}'
        · rw [if_pos hcb] at h
          have hv : ms = [] := by
            injection h with hp; injection hp with ha hb; exact ha.symm
          have hr : r = r0 := by
            injection h with hp; injection hp with ha hb; exact hb.symm
          rw [if_pos hcb, hv, hr]
        · rw [if_neg hcb] at h
          rw [if_neg hcb]
          by_cases hcm : c = ','
          · rw [if_pos hcm] at h
            rw [if_pos hcm]
            cases hsw0 : skipWs r0 with
            | nil =>
              rw [hsw0] at h
              exact Except.noConfusion h
            | cons d r1 =>
              have hsw0T := skipWs_append r0 d r1 hsw0 T
              rw [hsw0] at h
              simp only [] at h
              rw [hsw0T]
              simp only []
              by_cases hdq : d = '"'
              · rw [if_pos hdq] at h
                rw [if_pos hdq]
                cases hpk : pStr n r1 with
                | error e =>
                  rw [hpk] at h
                  exact Except.noConfusion h
                | ok p =>
                  obtain ⟨k, r2⟩ := p
                  rw [hpk] at h
                  simp only [] at h
                  rw [pStr_append n r1 k r2 T hpk]
                  simp only []
                  cases hsw2 : skipWs r2 with
                  | nil =>
                    rw [hsw2] at h
                    exact Except.noConfusion h
                  | cons e1 r3 =>
                    have hsw2T := skipWs_append r2 e1 r3 hsw2 T
                    rw [hsw2] at h
                    simp only [] at h
                    rw [hsw2T]
                    simp only []
                    by_cases he1 : e1 = ':'
                    · rw [if_pos he1] at h
                      rw [if_pos he1]
                      cases hsw3 : skipWs r3 with
                      | nil =>
                        rw [hsw3, pValue_nil n] at h
                        exact Except.noConfusion h
                      | cons f0 w =>
                        have hsw3T := skipWs_append r3 f0 w hsw3 T
                        rw [hsw3] at h
                        rw [hsw3T]
                        cases hpv : pValue n (f0 :: w) with
                        | error e =>
                          rw [hpv] at h
                          exact Except.noConfusion h
                        | ok pv =>
                          obtain ⟨v, r4⟩ := pv
                          rw [hpv] at h
                          simp only [] at h
                          cases hpt : pMembsTail n r4 with
                          | error e =>
                            rw [hpt] at h
                            exact Except.noConfusion h
                          | ok q =>
                            obtain ⟨ms1, r5⟩ := q
                            rw [hpt] at h
                            simp only [] at h
                            have hms : ms = (String.mk k, v) :: ms1 := by
                              injection h with hp; injection hp with ha hb
                              exact ha.symm
                            have hr : r = r5 := by
                              injection h with hp; injection hp with ha hb
                              exact hb.symm
                            have hsafe4 : numSafe r4 T :=
                              numSafe_of_pMembsTail n r4 ms1 r5 T hpt
                            have hpvT := ihV (f0 :: w) v r4 T hpv hsafe4
                            rw [show (f0 :: w) ++ T = f0 :: (w ++ T) from rfl] at hpvT
                            rw [hpvT]
                            simp only []
                            rw [ihMt r4 ms1 r5 T hpt (hr ▸ hs)]
                            simp only []
                            rw [hms, hr]
                    · rw [if_neg he1] at h
                      exact Except.noConfusion h
              · rw [if_neg hdq] at h
                exact Except.noConfusion h
          · rw [if_neg hcm] at h
            exact Except.noConfusion h

theorem pStr_mono (n : Nat) : ∀ cs s r2, pStr n cs = .ok (s, r2) →
    pStr (n + 1) cs = .ok (s, r2) := by
  induction n with
  | zero => intro cs s r2 h; exact Except.noConfusion h
  | succ n ih =>
    intro cs s r2 h
    cases cs with
    | nil => exact Except.noConfusion h
    | cons c r =>
      by_cases hq : c = '"'
      · subst hq
        have h0 : ∀ m w, pStr (m + 1) ('"' :: w) = .ok ([], w) := fun m w => rfl
        rw [h0 n r] at h
        rw [h0 (n + 1) r]
        exact h
      · by_cases hb : c = '\\'
        · subst hb
          have hred : ∀ m w, pStr (m + 1) ('\\' :: w) =
              (match pEsc w with
               | .error e => .error e
               | .ok (e, w2) =>
                 match pStr m w2 with
                 | .error e => .error e
                 | .ok (s1, w3) => .ok (e :: s1, w3)) := fun m w => rfl
          rw [hred n r] at h
          rw [hred (n + 1) r]
          cases hpe : pEsc r with
          | error e =>
            rw [hpe] at h
            exact Except.noConfusion h
          | ok p =>
            obtain ⟨e1, w2⟩ := p
            rw [hpe] at h
            simp only [] at h
            simp only []
            cases hps : pStr n w2 with
            | error e =>
              rw [hps] at h
              exact Except.noConfusion h
            | ok q =>
              obtain ⟨s1, w3⟩ := q
              rw [hps] at h
              simp only [] at h
              rw [ih w2 s1 w3 hps]
              simp only []
              exact h
        · by_cases hctl : c.toNat < 32
          · exfalso
            have hred : pStr (n + 1) (c :: r) = .error () := by
              simp only [pStr]
              rw [if_neg hq, if_neg hb, if_pos hctl]
            rw [hred] at h
            exact Except.noConfusion h
          · have hred : ∀ m, pStr (m + 1) (c :: r) =
                (match pStr m r with
                 | .error e => .error e
                 | .ok (s1, w2) => .ok (c :: s1, w2)) := by
              intro m
              simp only [pStr]
              rw [if_neg hq, if_neg hb, if_neg hctl]
            rw [hred n] at h
            rw [hred (n + 1)]
            cases hps : pStr n r with
            | error e =>
              rw [hps] at h
              exact Except.noConfusion h
            | ok q =>
              obtain ⟨s1, w2⟩ := q
              rw [hps] at h
              simp only [] at h
              rw [ih r s1 w2 hps]
              simp only []
              exact h

/-- Adding fuel preserves every successful parse. -/
theorem parser_mono (n : Nat) :
    (∀ cs v r, pValue n cs = .ok (v, r) → pValue (n + 1) cs = .ok (v, r)) ∧
    (∀ cs vs r, pElems n cs = .ok (vs, r) → pElems (n + 1) cs = .ok (vs, r)) ∧
    (∀ cs vs r, pElemsTail n cs = .ok (vs, r) → pElemsTail (n + 1) cs = .ok (vs, r)) ∧
    (∀ cs ms r, pMembs n cs = .ok (ms, r) → pMembs (n + 1) cs = .ok (ms, r)) ∧
    (∀ cs ms r, pMembsTail n cs = .ok (ms, r) → pMembsTail (n + 1) cs = .ok (ms, r)) := by
  induction n with
  | zero =>
    refine ⟨?_, ?_, ?_, ?_, ?_⟩ <;> intro cs x r h <;> exact Except.noConfusion h
  | succ n ih =>
    obtain ⟨ihV, ihE, ihEt, ihM, ihMt⟩ := ih
    refine ⟨?_, ?_, ?_, ?_, ?_⟩
    · -- pValue
      intro cs v r h
      cases cs with
      | nil => exact Except.noConfusion h
      | cons c r0 =>
        by_cases hq : c = '"'
        · subst hq
          have hred : ∀ m w, pValue (m + 1) ('"' :: w) =
              (match pStr m w with
               | .error e => .error e
               | .ok (s, r2) => .ok (.str (String.mk s), r2)) := fun m w => rfl
          rw [hred n r0] at h
          rw [hred (n + 1) r0]
          cases hps : pStr n r0 with
          | error e =>
            rw [hps] at h
            exact Except.noConfusion h
          | ok p =>
            obtain ⟨s, r2⟩ := p
            rw [hps] at h
            simp only [] at h
            rw [pStr_mono n r0 s r2 hps]
            simp only []
            exact h
        · by_cases hob : c = '{'
          · subst hob
            have hred : ∀ m w, pValue (m + 1) ('{' :: w) =
                (match pMembs m w with
                 | .error e => .error e
                 | .ok (ms, r2) => .ok (.obj (dedupPairs ms), r2)) := fun m w => rfl
            rw [hred n r0] at h
            rw [hred (n + 1) r0]
            cases hpm : pMembs n r0 with
            | error e =>
              rw [hpm] at h
              exact Except.noConfusion h
            | ok p =>
              obtain ⟨ms, r2⟩ := p
              rw [hpm] at h
              simp only [] at h
              rw [ihM r0 ms r2 hpm]
              simp only []
              exact h
          · by_cases har : c = '['
            · subst har
              have hred : ∀ m w, pValue (m + 1) ('[' :: w) =
                  (match pElems m w with
                   | .error e => .error e
                   | .ok (es, r2) => .ok (.arr es, r2)) := fun m w => rfl
              rw [hred n r0] at h
              rw [hred (n + 1) r0]
              cases hpe : pElems n r0 with
              | error e =>
                rw [hpe] at h
                exact Except.noConfusion h
              | ok p =>
                obtain ⟨es, r2⟩ := p
                rw [hpe] at h
                simp only [] at h
                rw [ihE r0 es r2 hpe]
                simp only []
                exact h
            · by_cases hnull : startsWithL ['n', 'u', 'l', 'l'] (c :: r0) = true
              · have hred : ∀ m, pValue (m + 1) (c :: r0) =
                    .ok (.null, (c :: r0).drop 4) := by
                  intro m
                  simp only [pValue]
                  rw [if_neg hq, if_neg hob, if_neg har, if_pos hnull]
                rw [hred n] at h
                rw [hred (n + 1)]
                exact h
              · by_cases htrue : startsWithL ['t', 'r', 'u', 'e'] (c :: r0) = true
                · have hred : ∀ m, pValue (m + 1) (c :: r0) =
                      .ok (.bool true, (c :: r0).drop 4) := by
                    intro m
                    simp only [pValue]
                    rw [if_neg hq, if_neg hob, if_neg har, if_neg hnull, if_pos htrue]
                  rw [hred n] at h
                  rw [hred (n + 1)]
                  exact h
                · by_cases hfal : startsWithL ['f', 'a', 'l', 's', 'e'] (c :: r0) = true
                  · have hred : ∀ m, pValue (m + 1) (c :: r0) =
                        .ok (.bool false, (c :: r0).drop 5) := by
                      intro m
                      simp only [pValue]
                      rw [if_neg hq, if_neg hob, if_neg har, if_neg hnull,
                        if_neg htrue, if_pos hfal]
                    rw [hred n] at h
                    rw [hred (n + 1)]
                    exact h
                  · by_cases hnan : startsWithL ['N', 'a', 'N'] (c :: r0) = true
                    · have hred : ∀ m, pValue (m + 1) (c :: r0) =
                          .ok (.num "NaN", (c :: r0).drop 3) := by
                        intro m
                        simp only [pValue]
                        rw [if_neg hq, if_neg hob, if_neg har, if_neg hnull,
                          if_neg htrue, if_neg hfal, if_pos hnan]
                      rw [hred n] at h
                      rw [hred (n + 1)]
                      exact h
                    · by_cases hinf : startsWithL
                          ['I', 'n', 'f', 'i', 'n', 'i', 't', 'y'] (c :: r0) = true
                      · have hred : ∀ m, pValue (m + 1) (c :: r0) =
                            .ok (.num "Infinity", (c :: r0).drop 8) := by
                          intro m
                          simp only [pValue]
                          rw [if_neg hq, if_neg hob, if_neg har, if_neg hnull,
                            if_neg htrue, if_neg hfal, if_neg hnan, if_pos hinf]
                        rw [hred n] at h
                        rw [hred (n + 1)]
                        exact h
                      · have hred : ∀ m, pValue (m + 1) (c :: r0) =
                            (match pNumber (c :: r0) with
                             | .ok (lex, r2) => .ok (.num (String.mk lex), r2)
                             | .error _ =>
                               if startsWithL
                                   ['-', 'I', 'n', 'f', 'i', 'n', 'i', 't', 'y']
                                   (c :: r0) = true then
                                 .ok (.num "-Infinity", (c :: r0).drop 9)
                               else .error ()) := by
                          intro m
                          simp only [pValue]
                          rw [if_neg hq, if_neg hob, if_neg har, if_neg hnull,
                            if_neg htrue, if_neg hfal, if_neg hnan, if_neg hinf]
                        rw [hred n] at h
                        rw [hred (n + 1)]
                        exact h
    · -- pElems
      intro cs vs r h
      have hredE : ∀ (m : Nat) (xs : List Char), pElems (m + 1) xs =
          (match skipWs xs with
           | [] => .error ()
           | c :: r =>
             if c = ']' then .ok ([], r)
             else
               match pValue m (c :: r) with
               | .error e => .error e
               | .ok (v, r1) =>
                 match pElemsTail m r1 with
                 | .error e => .error e
                 | .ok (vs, r2) => .ok (v :: vs, r2)) := fun m xs => rfl
      cases hsw : skipWs cs with
      | nil =>
        simp only [pElems, hsw] at h
        exact Except.noConfusion h
      | cons c r0 =>
        simp only [pElems, hsw] at h
        rw [hredE (n + 1) cs, hsw]
        simp only []
        by_cases hcb : c = ']'
        · rw [if_pos hcb] at h
          rw [if_pos hcb]
          exact h
        · rw [if_neg hcb] at h
          rw [if_neg hcb]
          cases hpv : pValue n (c :: r0) with
          | error e =>
            rw [hpv] at h
            exact Except.noConfusion h
          | ok p =>
            obtain ⟨v, r1⟩ := p
            rw [hpv] at h
            simp only [] at h
            rw [ihV (c :: r0) v r1 hpv]
            simp only []
            cases hpt : pElemsTail n r1 with
            | error e =>
              rw [hpt] at h
              exact Except.noConfusion h
            | ok q =>
              obtain ⟨vs1, r2⟩ := q
              rw [hpt] at h
              simp only [] at h
              rw [ihEt r1 vs1 r2 hpt]
              simp only []
              exact h
    · -- pElemsTail
      intro cs vs r h
      have hredEt : ∀ (m : Nat) (xs : List Char), pElemsTail (m + 1) xs =
          (match skipWs xs with
           | [] => .error ()
           | c :: r =>
             if c = ']' then .ok ([], r)
             else if c = ',' then
               match pValue m (skipWs r) with
               | .error e => .error e
               | .ok (v, r1) =>
                 match pElemsTail m r1 with
                 | .error e => .error e
                 | .ok (vs, r2) => .ok (v :: vs, r2)
             else .error ()) := fun m xs => rfl
      cases hsw : skipWs cs with
      | nil =>
        simp only [pElemsTail, hsw] at h
        exact Except.noConfusion h
      | cons c r0 =>
        simp only [pElemsTail, hsw] at h
        rw [hredEt (n + 1) cs, hsw]
        simp only []
        by_cases hcb : c = ']'
        · rw [if_pos hcb] at h
          rw [if_pos hcb]
          exact h
        · rw [if_neg hcb] at h
          rw [if_neg hcb]
          by_cases hcm : c = ','
          · rw [if_pos hcm] at h
            rw [if_pos hcm]
            cases hpv : pValue n (skipWs r0) with
            | error e =>
              rw [hpv] at h
              exact Except.noConfusion h
            | ok p =>
              obtain ⟨v, r1⟩ := p
              rw [hpv] at h
              simp only [] at h
              rw [ihV (skipWs r0) v r1 hpv]
              simp only []
              cases hpt : pElemsTail n r1 with
              | error e =>
                rw [hpt] at h
                exact Except.noConfusion h
              | ok q =>
                obtain ⟨vs1, r2⟩ := q
                rw [hpt] at h
                simp only [] at h
                rw [ihEt r1 vs1 r2 hpt]
                simp only []
                exact h
          · rw [if_neg hcm] at h
            exact Except.noConfusion h
    · -- pMembs
      intro cs ms r h
      have hredM : ∀ (m : Nat) (xs : List Char), pMembs (m + 1) xs =
          (match skipWs xs with
           | [] => .error ()
           | c :: r =>
             if c = '}' then .ok ([], r)
             else if c = '"' then
               match pStr m r with
               | .error e => .error e
               | .ok (k, r1) =>
                 match skipWs r1 with
                 | [] => .error ()
                 | d :: r2 =>
                   if d = ':' then
                     match pValue m (skipWs r2) with
                     | .error e => .error e
                     | .ok (v, r3) =>
                       match pMembsTail m r3 with
                       | .error e => .error e
                       | .ok (ms, r4) => .ok ((String.mk k, v) :: ms, r4)
                   else .error ()
             else .error ()) := fun m xs => rfl
      cases hsw : skipWs cs with
      | nil =>
        simp only [pMembs, hsw] at h
        exact Except.noConfusion h
      | cons c r0 =>
        simp only [pMembs, hsw] at h
        rw [hredM (n + 1) cs, hsw]
        simp only []
        by_cases hcb : c = '}'
        · rw [if_pos hcb] at h
          rw [if_pos hcb]
          exact h
        · rw [if_neg hcb] at h
          rw [if_neg hcb]
          by_cases hcq : c = '"'
          · rw [if_pos hcq] at h
            rw [if_pos hcq]
            cases hpk : pStr n r0 with
            | error e =>
              rw [hpk] at h
              exact Except.noConfusion h
            | ok p =>
              obtain ⟨k, r1⟩ := p
              rw [hpk] at h
              simp only [] at h
              rw [pStr_mono n r0 k r1 hpk]
              simp only []
              cases hsw1 : skipWs r1 with
              | nil =>
                rw [hsw1] at h
                exact Except.noConfusion h
              | cons d r2 =>
                rw [hsw1] at h
                simp only [] at h
                simp only []
                by_cases hd : d = ':'
                · rw [if_pos hd] at h
                  rw [if_pos hd]
                  cases hpv : pValue n (skipWs r2) with
                  | error e =>
                    rw [hpv] at h
                    exact Except.noConfusion h
                  | ok pv =>
                    obtain ⟨v, r3⟩ := pv
                    rw [hpv] at h
                    simp only [] at h
                    rw [ihV (skipWs r2) v r3 hpv]
                    simp only []
                    cases hpt : pMembsTail n r3 with
                    | error e =>
                      rw [hpt] at h
                      exact Except.noConfusion h
                    | ok q =>
                      obtain ⟨ms1, r4⟩ := q
                      rw [hpt] at h
                      simp only [] at h
                      rw [ihMt r3 ms1 r4 hpt]
                      simp only []
                      exact h
                · rw [if_neg hd] at h
                  exact Except.noConfusion h
          · rw [if_neg hcq] at h
            exact Except.noConfusion h
    · -- pMembsTail
      intro cs ms r h
      have hredMt : ∀ (m : Nat) (xs : List Char), pMembsTail (m + 1) xs =
          (match skipWs xs with
           | [] => .error ()
           | c :: r =>
             if c = '}' then .ok ([], r)
             else if c = ',' then
               match skipWs r with
               | [] => .error ()
               | d :: r1 =>
                 if d = '"' then
                   match pStr m r1 with
                   | .error e => .error e
                   | .ok (k, r2) =>
                     match skipWs r2 with
                     | [] => .error ()
                     | e0 :: r3 =>
                       if e0 = ':' then
                         match pValue m (skipWs r3) with
                         | .error e => .error e
                         | .ok (v, r4) =>
                           match pMembsTail m r4 with
                           | .error e => .error e
                           | .ok (ms, r5) => .ok ((String.mk k, v) :: ms, r5)
                       else .error ()
                 else .error ()
             else .error ()) := fun m xs => rfl
      cases hsw : skipWs cs with
      | nil =>
        simp only [pMembsTail, hsw] at h
        exact Except.noConfusion h
      | cons c r0 =>
        simp only [pMembsTail, hsw] at h
        rw [hredMt (n + 1) cs, hsw]
        simp only []
        by_cases hcb : c = '}'
        · rw [if_pos hcb] at h
          rw [if_pos hcb]
          exact h
        · rw [if_neg hcb] at h
          rw [if_neg hcb]
          by_cases hcm : c = ','
          · rw [if_pos hcm] at h
            rw [if_pos hcm]
            cases hsw0 : skipWs r0 with
            | nil =>
              rw [hsw0] at h
              exact Except.noConfusion h
            | cons d r1 =>
              rw [hsw0] at h
              simp only [] at h
              simp only []
              by_cases hdq : d = '"'
              · rw [if_pos hdq] at h
                rw [if_pos hdq]
                cases hpk : pStr n r1 with
                | error e =>
                  rw [hpk] at h
                  exact Except.noConfusion h
                | ok p =>
                  obtain ⟨k, r2⟩ := p
                  rw [hpk] at h
                  simp only [] at h
                  rw [pStr_mono n r1 k r2 hpk]
                  simp only []
                  cases hsw2 : skipWs r2 with
                  | nil =>
                    rw [hsw2] at h
                    exact Except.noConfusion h
                  | cons e1 r3 =>
                    rw [hsw2] at h
                    simp only [] at h
                    simp only []
                    by_cases he1 : e1 = ':'
                    · rw [if_pos he1] at h
                      rw [if_pos he1]
                      cases hpv : pValue n (skipWs r3) with
                      | error e =>
                        rw [hpv] at h
                        exact Except.noConfusion h
                      | ok pv =>
                        obtain ⟨v, r4⟩ := pv
                        rw [hpv] at h
                        simp only [] at h
                        rw [ihV (skipWs r3) v r4 hpv]
                        simp only []
                        cases hpt : pMembsTail n r4 with
                        | error e =>
                          rw [hpt] at h
                          exact Except.noConfusion h
                        | ok q =>
                          obtain ⟨ms1, r5⟩ := q
                          rw [hpt] at h
                          simp only [] at h
                          rw [ihMt r4 ms1 r5 hpt]
                          simp only []
                          exact h
                    · rw [if_neg he1] at h
                      exact Except.noConfusion h
              · rw [if_neg hdq] at h
                exact Except.noConfusion h
          · rw [if_neg hcm] at h
            exact Except.noConfusion h

theorem pValue_le (m n : Nat) (hmn : m ≤ n) : ∀ cs v r,
    pValue m cs = .ok (v, r) → pValue n cs = .ok (v, r) := by
  induction hmn with
  | refl => intro cs v r h; exact h
  | step h2 ih =>
    intro cs v r h
    exact (parser_mono _).1 cs v r (ih cs v r h)

theorem tailOf_cons (b : List Char) (t : List (List Char)) :
    tailOf (b :: t) = ',' :: '\n' :: (b ++ tailOf t) := by
  show ((',' :: '\n' :: b) ++ (t.map fun o => ',' :: '\n' :: o).flatten) ++
      '\n' :: [']'] = _
  rw [List.append_assoc]
  rfl

theorem tailOf_head (os : List (List Char)) :
    ∃ c ts, tailOf os = c :: ts ∧ numExt c = false := by
  cases os with
  | nil => exact ⟨'\n', [']'], rfl, by decide⟩
  | cons b t => exact ⟨',', '\n' :: (b ++ tailOf t), tailOf_cons b t, by decide⟩

theorem tailOf_len_ge (os : List (List Char)) : 2 ≤ (tailOf os).length := by
  show 2 ≤ ((os.map fun o => ',' :: '\n' :: o).flatten ++ '\n' :: [']']).length
  rw [List.length_append]
  simp

theorem fuelNeed_le (os : List (List Char)) :
    fuelNeed os ≤ 2 * (tailOf os).length + 1 := by
  induction os with
  | nil => decide
  | cons o t ih =>
    rw [tailOf_cons]
    have h2 := tailOf_len_ge t
    have hm : max (loadsFuel o) (fuelNeed t) ≤
        2 * (',' :: '\n' :: (o ++ tailOf t)).length := by
      apply Nat.max_le.mpr
      constructor
      · simp only [loadsFuel, List.length_cons, List.length_append]
        omega
      · calc fuelNeed t ≤ 2 * (tailOf t).length + 1 := ih
          _ ≤ _ := by
            simp only [List.length_cons, List.length_append]
            omega
    simp only [fuelNeed]
    omega

theorem joinComma_append (os : List (List Char)) : ∀ o,
    joinComma (o :: os) ++ '\n' :: [']'] = o ++ tailOf os := by
  induction os with
  | nil =>
    intro o
    show o ++ '\n' :: [']'] = o ++ tailOf []
    rfl
  | cons b t ih =>
    intro o
    show (o ++ ',' :: '\n' :: joinComma (b :: t)) ++ '\n' :: [']'] = o ++ tailOf (b :: t)
    rw [List.append_assoc]
    have h2 : (',' :: '\n' :: joinComma (b :: t)) ++ '\n' :: [']'] =
        ',' :: '\n' :: (b ++ tailOf t) := by
      show ',' :: '\n' :: (joinComma (b :: t) ++ '\n' :: [']']) = _
      rw [ih b]
    rw [h2, tailOf_cons]

theorem reconstruct_decomp (o : List Char) (os : List (List Char)) :
    reconstruct (o :: os) = '[' :: '\n' :: (o ++ tailOf os) := by
  show '[' :: '\n' :: (joinComma (o :: os) ++ '\n' :: [']']) = _
  rw [joinComma_append os o]

theorem skipWs_nil_append (a b : List Char) (h : skipWs a = []) :
    skipWs (a ++ b) = skipWs b := by
  induction a with
  | nil => rfl
  | cons c cr ih =>
    rw [List.cons_append]
    unfold skipWs at h ⊢
    rw [List.dropWhile_cons] at h
    rw [List.dropWhile_cons]
    by_cases hc : isJsonWs c = true
    · rw [if_pos hc] at h
      rw [if_pos hc]
      exact ih h
    · rw [if_neg hc] at h
      exact absurd h (by simp)

theorem numSafe_of_ws (r T : List Char) (hr : (skipWs r).isEmpty = true)
    (hT : T = [] ∨ ∃ c ts, T = c :: ts ∧ numExt c = false) : numSafe r T := by
  cases r with
  | nil => exact hT
  | cons c cr =>
    show numExt c = false
    by_cases hc : isJsonWs c = true
    · exact jsonWs_not_numExt c hc
    · exfalso
      unfold skipWs at hr
      rw [List.dropWhile_cons, if_neg hc] at hr
      simp at hr

theorem loadsL_obj_elim (q : List Char) (v : Json) (h : loadsL ('{' :: q) = .ok v) :
    ∃ r1, pValue (loadsFuel ('{' :: q)) ('{' :: q) = .ok (v, r1) ∧
      (skipWs r1).isEmpty = true := by
  have hredL : loadsL ('{' :: q) =
      (match pValue (loadsFuel ('{' :: q)) ('{' :: q) with
       | .error _ => .error ()
       | .ok (v, r) => if (skipWs r).isEmpty then .ok v else .error ()) := rfl
  rw [hredL] at h
  cases hpv : pValue (loadsFuel ('{' :: q)) ('{' :: q) with
  | error e =>
    rw [hpv] at h
    exact Except.noConfusion h
  | ok p =>
    obtain ⟨v0, r1⟩ := p
    rw [hpv] at h
    simp only [] at h
    by_cases hemp : (skipWs r1).isEmpty = true
    · rw [if_pos hemp] at h
      have hv0 : v0 = v := by injection h with hh
      subst hv0
      exact ⟨r1, rfl, hemp⟩
    · rw [if_neg hemp] at h
      exact Except.noConfusion h

theorem skipWs_isEmpty_nil (r : List Char) (h : (skipWs r).isEmpty = true) :
    skipWs r = [] := by
  cases h2 : skipWs r with
  | nil => rfl
  | cons a b =>
    rw [h2] at h
    exact absurd h (by simp)

theorem pElemsTail_ws_congr (m : Nat) (r1 X : List Char) (h : skipWs r1 = []) :
    pElemsTail m (r1 ++ X) = pElemsTail m X := by
  cases m with
  | zero => rfl
  | succ k =>
    simp only [pElemsTail]
    rw [skipWs_nil_append r1 X h]

/-- The element-tail loop parses the glued objects one by one. -/
theorem pElemsTail_tailOf (os : List (List Char)) (vs : List Json)
    (hvs : List.Forall₂ (fun o v => loadsL o = .ok v) os vs) :
    (∀ o ∈ os, ∃ q, o = '{' :: q) →
    ∀ n, fuelNeed os ≤ n →
    pElemsTail n (tailOf os) = .ok (vs, []) := by
  induction hvs with
  | nil =>
    intro _ n hn
    obtain ⟨m, rfl⟩ : ∃ m, n = m + 1 := ⟨n - 1, by simp only [fuelNeed] at hn; omega⟩
    rfl
  | cons hv hvs' ih =>
    rename_i o v os' vs'
    intro hobj n hn
    simp only [fuelNeed] at hn
    have hmaxA := Nat.le_max_left (loadsFuel o) (fuelNeed os')
    have hmaxB := Nat.le_max_right (loadsFuel o) (fuelNeed os')
    obtain ⟨m, rfl⟩ : ∃ m, n = m + 1 := ⟨n - 1, by omega⟩
    have hA : loadsFuel o ≤ m := by omega
    have hB : fuelNeed os' ≤ m := by omega
    obtain ⟨q, rfl⟩ := hobj o (List.mem_cons_self o os')
    rw [tailOf_cons]
    have hred : pElemsTail (m + 1) (',' :: '\n' :: (('{' :: q) ++ tailOf os')) =
        (match pValue m (('{' :: q) ++ tailOf os') with
         | .error e => .error e
         | .ok (v, r1) =>
           match pElemsTail m r1 with
           | .error e => .error e
           | .ok (vs, r2) => .ok (v :: vs, r2)) := rfl
    rw [hred]
    obtain ⟨r1, hpv, hemp⟩ := loadsL_obj_elim q v hv
    have hns : numSafe r1 (tailOf os') :=
      numSafe_of_ws r1 (tailOf os') hemp (Or.inr (tailOf_head os'))
    have hpvT := (parser_append (loadsFuel ('{' :: q))).1 ('{' :: q) v r1
      (tailOf os') hpv hns
    have hpvm := pValue_le (loadsFuel ('{' :: q)) m hA (('{' :: q) ++ tailOf os')
      v (r1 ++ tailOf os') hpvT
    rw [hpvm]
    simp only []
    rw [pElemsTail_ws_congr m r1 (tailOf os') (skipWs_isEmpty_nil r1 hemp)]
    rw [ih (fun o2 ho2 => hobj o2 (List.mem_cons_of_mem _ ho2)) m hB]

/-- Parsing the reconstructed array of individually valid `{`-headed
objects yields the array of their values. -/
theorem loadsL_reconstruct (os : List (List Char)) (vs : List Json)
    (hobj : ∀ o ∈ os, ∃ q, o = '{' :: q)
    (hvs : List.Forall₂ (fun o v => loadsL o = .ok v) os vs)
    (hne : os ≠ []) :
    loadsL (reconstruct os) = .ok (.arr vs) := by
  cases os with
  | nil => exact absurd rfl hne
  | cons o os' =>
    rcases hvs with _ | ⟨hv, hvs'⟩
    rename_i v vs'
    obtain ⟨q, rfl⟩ := hobj o (List.mem_cons_self o os')
    rw [reconstruct_decomp]
    have hredL : loadsL ('[' :: '\n' :: (('{' :: q) ++ tailOf os')) =
        (match pValue (loadsFuel ('[' :: '\n' :: (('{' :: q) ++ tailOf os')))
            ('[' :: '\n' :: (('{' :: q) ++ tailOf os')) with
         | .error _ => .error ()
         | .ok (v, r) => if (skipWs r).isEmpty then .ok v else .error ()) := rfl
    obtain ⟨m, hm⟩ : ∃ m, loadsFuel ('[' :: '\n' :: (('{' :: q) ++ tailOf os')) =
        m + 2 :=
      ⟨loadsFuel ('[' :: '\n' :: (('{' :: q) ++ tailOf os')) - 2, by
        simp only [loadsFuel]; omega⟩
    have hmlen : 2 * q.length + 2 * (tailOf os').length + 12 ≤ m := by
      have := hm
      simp only [loadsFuel, List.length_cons, List.length_append] at this
      omega
    have hA : loadsFuel ('{' :: q) ≤ m := by
      simp only [loadsFuel, List.length_cons]
      omega
    have hB : fuelNeed os' ≤ m := by
      have := fuelNeed_le os'
      omega
    obtain ⟨r1, hpv, hemp⟩ := loadsL_obj_elim q v hv
    have hns : numSafe r1 (tailOf os') :=
      numSafe_of_ws r1 (tailOf os') hemp (Or.inr (tailOf_head os'))
    have hpvT := (parser_append (loadsFuel ('{' :: q))).1 ('{' :: q) v r1
      (tailOf os') hpv hns
    have hpvm := pValue_le (loadsFuel ('{' :: q)) m hA (('{' :: q) ++ tailOf os')
      v (r1 ++ tailOf os') hpvT
    have hElems : pElems (m + 1) ('\n' :: (('{' :: q) ++ tailOf os')) =
        .ok (v :: vs', []) := by
      have hredE : pElems (m + 1) ('\n' :: (('{' :: q) ++ tailOf os')) =
          (match pValue m (('{' :: q) ++ tailOf os') with
           | .error e => .error e
           | .ok (v, r1) =>
             match pElemsTail m r1 with
             | .error e => .error e
             | .ok (vs, r2) => .ok (v :: vs, r2)) := rfl
      rw [hredE, hpvm]
      simp only []
      rw [pElemsTail_ws_congr m r1 (tailOf os') (skipWs_isEmpty_nil r1 hemp)]
      rw [pElemsTail_tailOf os' vs' hvs'
        (fun o2 ho2 => hobj o2 (List.mem_cons_of_mem _ ho2)) m hB]
    have hredV : ∀ (k : Nat) (w : List Char), pValue (k + 1) ('[' :: w) =
        (match pElems k w with
         | .error e => .error e
         | .ok (es, r2) => .ok (.arr es, r2)) := fun k w => rfl
    have hVal : pValue (m + 2) ('[' :: '\n' :: (('{' :: q) ++ tailOf os')) =
        .ok (.arr (v :: vs'), []) := by
      rw [hredV (m + 1) ('\n' :: (('{' :: q) ++ tailOf os')), hElems]
    rw [hredL, hm, hVal]
    rfl

theorem bal_plain (s : List Char) (h : sepOK s = true) : Bal s := by
  induction s with
  | nil => exact Bal.nil
  | cons c cs ih =>
    obtain ⟨⟨h1, h2, h3, h4⟩, hcs⟩ := sepOK_cons c cs h
    exact Bal.plain c cs (by simp [h1, h2, h3, h4]) (ih hcs)

/-- C3 amended: when the text is a square bracket followed by complete
top-level objects (with brace-and-bracket-free separators and object
bodies balanced over braces and brackets) and then a truncation stub
that never closes, the direct parse fails, and — provided the text has
no backtick fence and each complete object is itself valid JSON — the
extraction recovers exactly the array of the complete objects'
values. -/
theorem c3_truncated_recovery (t sep0 stub : List Char)
    (pairs : List (List Char × List Char)) (vs : List Json)
    (ht : t = '[' :: (sep0 ++ (glueOS pairs ++ stub)))
    (hsep0 : sepOK sep0 = true)
    (hp : ∀ p ∈ pairs, OTok p.1 ∧ sepOK p.2 = true)
    (hstub : TruncStub stub)
    (hne : pairs ≠ [])
    (hfence : containsTriple t = false)
    (hfail : loadsL t = .error ())
    (hvs : List.Forall₂ (fun o v => loadsL o = .ok v) (pairs.map Prod.fst) vs) :
    extract_json_from_text t = some (.arr vs) := by
  have hfs := fenceSearch_eq_none t hfence
  have hE : loadsE t = .error .jsonDecodeError := by
    unfold loadsE
    rw [hfail]
  have hfind : findOpenBracket t = some 0 := by
    rw [ht]
    rfl
  have hmc : matchClose (t.drop 0) 0 [] = none := by
    rw [List.drop_zero, ht]
    have h1 : matchClose ('[' :: (sep0 ++ (glueOS pairs ++ stub))) 0 [] =
        matchClose (sep0 ++ (glueOS pairs ++ stub)) 1 ['['] := rfl
    rw [h1, matchClose_sep sep0 hsep0 (glueOS pairs ++ stub) 1 ['[']]
    exact matchClose_glue pairs stub 1 _ hp hstub (by omega)
  have hscan : objScan t 0 = pairs.map Prod.fst := by
    rw [ht]
    exact objScan_struct sep0 pairs stub hsep0 hp hstub
  have hobj : ∀ o ∈ pairs.map Prod.fst, ∃ q, o = '{' :: q := by
    intro o ho
    obtain ⟨p, hpmem, rfl⟩ := List.mem_map.mp ho
    obtain ⟨inner, heq, _⟩ := (hp p hpmem).1
    exact ⟨inner ++ ['}'], heq⟩
  have hmapne : pairs.map Prod.fst ≠ [] := by
    cases pairs with
    | nil => exact absurd rfl hne
    | cons a b => intro hmap; exact List.noConfusion hmap
  have hisEmpty : (pairs.map Prod.fst).isEmpty = false := by
    cases hmap : pairs.map Prod.fst with
    | nil => exact absurd hmap hmapne
    | cons a b => rfl
  have hrecL := loadsL_reconstruct (pairs.map Prod.fst) vs hobj hvs hmapne
  have hrec : loadsE (reconstruct (pairs.map Prod.fst)) = .ok (.arr vs) := by
    unfold loadsE
    rw [hrecL]
  unfold extract_json_from_text
  simp only [extractE, hfs, hE, hfind, hmc, hscan, hisEmpty, Bool.false_eq_true,
    if_false, hrec]

/-- C3 witness: the valid two-object array text truncated inside its
second object; extraction returns the array holding the first object's
value. -/
theorem c3_truncated_recovery_witness :
    extract_json_from_text
      ['[', '{', '"', 'a', '"', ':', ' ', '1', '}', ',', ' ', '{', '"', 'b', '"'] =
      some (.arr [.obj [("a", .num "1")]]) := by
  exact c3_truncated_recovery
    ['[', '{', '"', 'a', '"', ':', ' ', '1', '}', ',', ' ', '{', '"', 'b', '"']
    [] ['{', '"', 'b', '"']
    [(['{', '"', 'a', '"', ':', ' ', '1', '}'], [',', ' '])]
    [.obj [("a", .num "1")]]
    rfl
    rfl
    (by
      intro p hp2
      rcases List.mem_singleton.mp hp2 with rfl
      exact ⟨⟨['"', 'a', '"', ':', ' ', '1'], rfl, bal_plain _ (by decide)⟩,
        by decide⟩)
    (Or.inr ⟨['"', 'b', '"'], rfl, by decide, by decide⟩)
    (by intro hx; exact List.noConfusion hx)
    (by decide)
    rfl
    (List.Forall₂.cons rfl List.Forall₂.nil)

end KG
